import Mathlib

/-!
Verification development for `mahotas/labeled.py` (connected-component
labeling and label-map utilities).

The Python module in `src/mahotas/labeled.py` is a thin wrapper around a
native kernel (`mahotas._labeled`) whose source is not part of this
repository snapshot.  Wherever a definition models that missing kernel (or
another missing collaborator such as `get_structuring_elem`,
`mahotas.fullhistogram` or `mahotas.convolve`), its doc comment starts with
`Modelled from the spec:` and names the missing piece; everything else is a
direct shallow embedding of the Python code, instantiated at 2-D arrays.

Conventions:
* an image / array is a pair of dimensions plus a total pixel function
  (`Img`); all element-wise statements are restricted to in-bounds indices,
  mirroring NumPy's element-wise semantics on same-shaped arrays;
* a structuring element is given by its neighbour offset set `N(Bc)`
  (list of `Int × Int` offsets, centre excluded), which is what
  `get_structuring_elem` produces for the kernels.
-/

namespace Mahotas

/-- A 2-D array: dimensions plus a total pixel function (row, column). -/
structure Img where
  h : Nat
  w : Nat
  px : Nat → Nat → Int

/-- A 2-D boolean array (NumPy `bool` output buffers). -/
structure BImg where
  h : Nat
  w : Nat
  px : Nat → Nat → Bool

/-- Positions are (row, column) pairs. -/
abbrev Pos := Nat × Nat

/-- Build an image from a list-of-rows literal (row-major, like a NumPy
2-D array literal); out-of-range reads give 0. -/
def imgOfLL (l : List (List Int)) : Img :=
  ⟨l.length, (l.headD []).length, fun i j => ((l.getD i []).getD j 0)⟩

/-- All in-bounds positions of an `h × w` array in raster (row-major) scan
order, the order in which the kernels traverse C-contiguous arrays. -/
def rasterPos (h w : Nat) : List Pos :=
  (List.range h).flatMap (fun i => (List.range w).map (fun j => (i, j)))

/-- Raster (lexicographic) order on positions. -/
def rLt (a b : Pos) : Prop := a.1 < b.1 ∨ (a.1 = b.1 ∧ a.2 < b.2)

/-- One renumbering step on a value stream: a fresh nonzero value is
appended to the association list with the next dense id. -/
def rnVStep (acc : List (Nat × Nat)) (x : Nat) : List (Nat × Nat) :=
  if x = 0 then acc
  else if (acc.lookup x).isSome then acc
  else acc ++ [(x, acc.length + 1)]

/-- Association list mapping each distinct nonzero value of the stream to
its dense id `1..K`, in order of first appearance. -/
def renumAssoc (l : List Nat) : List (Nat × Nat) :=
  l.foldl rnVStep []

/-- One deduplication step: keep the first occurrence of each nonzero
value. -/
def dStep (acc : List Nat) (x : Nat) : List Nat :=
  if x = 0 then acc else if x ∈ acc then acc else acc ++ [x]

/-- The distinct nonzero values of a stream, in order of first
appearance. -/
def dedupNZ (l : List Nat) : List Nat :=
  l.foldl dStep []

/-- Pair a value list with the dense ids `1..K`. -/
def enum1 (l : List Nat) : List (Nat × Nat) :=
  l.zip (List.range' 1 l.length)

/-- Modelled from the spec: the renumbered value at a position — 0 for
background, the dense id of `v c` otherwise. -/
def rnMap (v : Pos → Nat) (ps : List Pos) (c : Pos) : Nat :=
  if v c = 0 then 0 else ((renumAssoc (ps.map v)).lookup (v c)).getD 0

/-- Modelled from the spec: the object count returned with the renumbered
map (the number of distinct nonzero values). -/
def rnCount (v : Pos → Nat) (ps : List Pos) : Nat :=
  (renumAssoc (ps.map v)).length

/-- Modelled from the spec: `find` of the union-find, chasing parents in a
flat parent array; explicit fuel makes it total (callers pass the array
length, enough for the "smaller ID wins" forest). Ids outside the array
are their own parents. -/
def ufFind (p : List Nat) : Nat → Nat → Nat
  | 0, i => i
  | fuel + 1, i => if p.getD i i = i then i else ufFind p fuel (p.getD i i)

/-- Modelled from the spec: `union` — merge the classes of `a` and `b`,
with the smaller representative winning (keeps output order stable). -/
def ufUnion (p : List Nat) (a b : Nat) : List Nat :=
  if ufFind p p.length a = ufFind p p.length b then p
  else p.set (max (ufFind p p.length a) (ufFind p p.length b))
    (min (ufFind p p.length a) (ufFind p p.length b))

/-- Invariant of the parent array: id 0 (background, never unioned) is its
own parent and positive ids have positive parents. -/
def UFPos (p : List Nat) : Prop :=
  p.getD 0 0 = 0 ∧ ∀ k, 1 ≤ k → 1 ≤ p.getD k k

/-- Modelled from the spec: the default structuring element produced by
`get_structuring_elem` when none is supplied — the 3×3 cross
(4-connectivity), as its neighbour offset set `N(Bc)`. -/
def crossSE : List (Int × Int) := [(-1, 0), (0, -1), (0, 1), (1, 0)]

/-- Modelled from the spec: the full 3×3 structuring element
(8-connectivity) produced by `get_structuring_elem` for `Bc = 8`. -/
def fullSE : List (Int × Int) :=
  [(-1, -1), (-1, 0), (-1, 1), (0, -1), (0, 1), (1, -1), (1, 0), (1, 1)]

/-- The causal half of a structuring element: offsets pointing to
raster-earlier (already-visited) positions. -/
def causal (Bc : List (Int × Int)) : List (Int × Int) :=
  Bc.filter fun o => decide (o.1 < 0 ∨ (o.1 = 0 ∧ o.2 < 0))

/-- Apply an offset to a position; `some` target iff in bounds. -/
def offPos (h w : Nat) (c : Pos) (o : Int × Int) : Option Pos :=
  if 0 ≤ (c.1 : Int) + o.1 ∧ (c.1 : Int) + o.1 < (h : Int) ∧
     0 ≤ (c.2 : Int) + o.2 ∧ (c.2 : Int) + o.2 < (w : Int)
  then some ((((c.1 : Int) + o.1).toNat, ((c.2 : Int) + o.2).toNat) : Pos)
  else none

/-- State of pass 1: the parent array and the provisional label map
(0 = unassigned / background). -/
structure LSt where
  uf : List Nat
  lab : Pos → Nat

/-- The already-visited foreground neighbours of `c` under the causal half
of `Bc`. -/
def fgNbrs (bin : Img) (Bc : List (Int × Int)) (c : Pos) : List Pos :=
  ((causal Bc).filterMap (offPos bin.h bin.w c)).filter
    (fun q => bin.px q.1 q.2 != 0)

/-- Modelled from the spec: pass 1 of `_labeled.label` at one voxel:
background is skipped; a foreground voxel with no already-visited
foreground neighbour gets a fresh provisional label; otherwise it gets the
minimum of its neighbours' labels and all of them are unioned together. -/
def p1step (bin : Img) (Bc : List (Int × Int)) (st : LSt) (c : Pos) : LSt :=
  if bin.px c.1 c.2 = 0 then st
  else
    match (fgNbrs bin Bc c).map st.lab with
    | [] =>
      { uf := st.uf ++ [st.uf.length],
        lab := fun q => if q = c then st.uf.length else st.lab q }
    | l :: ls =>
      let m := ls.foldl min l
      { uf := (l :: ls).foldl (fun u x => ufUnion u m x) st.uf,
        lab := fun q => if q = c then m else st.lab q }

/-- Pass 1 over the whole array in raster order.  Id 0 is reserved for the
background; the initial parent array is `[0]`. -/
def p1 (bin : Img) (Bc : List (Int × Int)) : LSt :=
  (rasterPos bin.h bin.w).foldl (p1step bin Bc) ⟨[0], fun _ => 0⟩

/-- The representative (resolved) label of a voxel after pass 1. -/
def labelV (bin : Img) (Bc : List (Int × Int)) (c : Pos) : Nat :=
  ufFind (p1 bin Bc).uf (p1 bin Bc).uf.length ((p1 bin Bc).lab c)

/-- Modelled from the spec: `_labeled.label` — pass 1, then resolve every
provisional label through `find` and remap the representatives to the
dense range `1..K` in order of first appearance (pass 2). -/
def labelCore (bin : Img) (Bc : List (Int × Int)) : Img × Nat :=
  (⟨bin.h, bin.w,
    fun i j => (rnMap (labelV bin Bc) (rasterPos bin.h bin.w) (i, j) : Int)⟩,
   rnCount (labelV bin Bc) (rasterPos bin.h bin.w))

/-- `output[:] = (array != 0)` (line 57 of `labeled.py`): the binarized
image the kernel actually labels. -/
def binarize (a : Img) : Img := ⟨a.h, a.w, fun i j => if a.px i j = 0 then 0 else 1⟩

/-- `label` (lines 29-60 of `labeled.py`): binarize into the output
buffer, then run the kernel. -/
def label (array : Img) (Bc : List (Int × Int)) : Img × Nat :=
  labelCore (binarize array) Bc

/-- `label` with a caller-supplied output buffer: line 57 overwrites every
element of the buffer with the binarization of `array` before the kernel
runs, so the buffer's prior contents are discarded. -/
def labelWithOut (array : Img) (Bc : List (Int × Int)) (out : Img) : Img × Nat :=
  labelCore ⟨out.h, out.w, fun i j => if array.px i j = 0 then 0 else 1⟩ Bc

/-- Pass-1 invariant: the parent array satisfies `UFPos`, and the
provisional label of a visited voxel is 0 exactly on background (unvisited
voxels are still 0). -/
def LabInv (bin : Img) (pre : List Pos) (st : LSt) : Prop :=
  UFPos st.uf ∧ 1 ≤ st.uf.length ∧
  (∀ c, c ∈ pre → (st.lab c = 0 ↔ bin.px c.1 c.2 = 0)) ∧
  (∀ c, c ∉ pre → st.lab c = 0)

/-- Sample inputs used by witnesses. -/
def exA : Img := imgOfLL [[0, 5], [3, 0]]

def exBuf : Img := imgOfLL [[7, 7], [7, 7]]

/-! ### Object counts for the C2 scenarios -/

/-- Pass-1 invariant for an all-foreground array under the cross
structuring element: after the first voxel, a single provisional label 1
exists and every visited voxel carries it. -/
def FgInv (bin : Img) (pre : List Pos) (st : LSt) : Prop :=
  (pre = [] ∧ st.uf = [0] ∧ ∀ c, st.lab c = 0) ∨
  (pre ≠ [] ∧ st.uf = [0, 1] ∧ (∀ c ∈ pre, st.lab c = 1) ∧
    ∀ c, c ∉ pre → st.lab c = 0)

/-- Expected provisional labels for the two-diagonal-pixels scenario under
the cross structuring element. -/
def dlab (c : Pos) : Nat :=
  if c = (0, 0) then 1 else if c = (1, 1) then 2 else 0

/-- Expected provisional labels for the same scenario under the full 3×3
structuring element (the two pixels are 8-connected). -/
def dlabF (c : Pos) : Nat :=
  if c = (0, 0) ∨ c = (1, 1) then 1 else 0

/-- Pass-1 invariant for the diagonal scenario, cross connectivity. -/
def DiagInv (pre : List Pos) (st : LSt) : Prop :=
  st.uf = (if ((1, 1) : Pos) ∈ pre then [0, 1, 2]
           else if ((0, 0) : Pos) ∈ pre then [0, 1] else [0]) ∧
  (∀ c ∈ pre, st.lab c = dlab c) ∧ (∀ c, c ∉ pre → st.lab c = 0)

/-- Pass-1 invariant for the diagonal scenario, 8-connectivity. -/
def DiagInvF (pre : List Pos) (st : LSt) : Prop :=
  st.uf = (if ((0, 0) : Pos) ∈ pre then [0, 1] else [0]) ∧
  (∀ c ∈ pre, st.lab c = dlabF c) ∧ (∀ c, c ∉ pre → st.lab c = 0)

/-- Sample images for the C2 witness. -/
def exDiag : Img := imgOfLL [[4, 0], [0, 9]]

def exBg2 : Img := imgOfLL [[0, 0], [0, 0]]

def exFg2 : Img := imgOfLL [[1, 1], [1, 1]]

/-- The value stream of a label map (label maps are non-negative; the
fixed-width signed values are read back as naturals). -/
def vOf (labeled : Img) (c : Pos) : Nat := (labeled.px c.1 c.2).toNat

/-- Modelled from the spec: `_labeled.relabel` (native kernel not under
`src/`) — remap the distinct nonzero values of the label map to the dense
range `1..K` in order of first appearance during a raster scan, keep
background fixed, and return the new count. -/
def relabelCore (labeled : Img) : Img × Nat :=
  (⟨labeled.h, labeled.w,
    fun i j => (rnMap (vOf labeled) (rasterPos labeled.h labeled.w) (i, j) : Int)⟩,
   rnCount (vOf labeled) (rasterPos labeled.h labeled.w))

/-- `relabel` wrapper (lines 62-101 of `labeled.py`): with
`inplace=False` the input is copied first (line 99), with `inplace=True`
the kernel overwrites the input buffer and the buffer is returned.  The
second component records the final contents of the caller's input
buffer. -/
def relabel (labeled : Img) (inplace : Bool) : (Img × Nat) × Img :=
  if inplace then (relabelCore labeled, (relabelCore labeled).1)
  else (relabelCore labeled, labeled)

/-- Label maps carry non-negative integers (data model §3). -/
def Nonneg (a : Img) : Prop := ∀ i < a.h, ∀ j < a.w, 0 ≤ a.px i j

/-- Sample gapped label map `1,3,3,7` used by C3/C8. -/
def exGap : Img := imgOfLL [[1, 3, 3, 7]]

/-- The value renaming performed by one renumbering pass, at the stream
level. -/
def renumVal (l : List Nat) (x : Nat) : Nat :=
  if x = 0 then 0 else (dedupNZ l).indexOf x + 1

/-- Modelled from the spec: one step of `_labeled.is_same_labeling`
(native kernel not under `src/`, implementation approach §4.4): build a
one-to-one label correspondence incrementally during a single linear
scan; `none` records that a contradiction was found. -/
def slStep (a b : Img) (st : Option (List (Int × Int))) (c : Pos) :
    Option (List (Int × Int)) :=
  match st with
  | none => none
  | some m =>
    if a.px c.1 c.2 = 0 then (if b.px c.1 c.2 = 0 then some m else none)
    else if b.px c.1 c.2 = 0 then none
    else
      match m.lookup (a.px c.1 c.2) with
      | some y => if y = b.px c.1 c.2 then some m else none
      | none =>
        if b.px c.1 c.2 ∈ m.map Prod.snd then none
        else some (m ++ [(a.px c.1 c.2, b.px c.1 c.2)])

/-- Modelled from the spec: `is_same_labeling` — the scan succeeds iff no
contradiction was found. -/
def is_same_labeling (a b : Img) : Bool :=
  ((rasterPos a.h a.w).foldl (slStep a b) (some [])).isSome

/-- The nonzero labels attained by a map (on in-bounds positions). -/
def fgLabels (a : Img) : Set Int :=
  {v | v ≠ 0 ∧ ∃ i j, i < a.h ∧ j < a.w ∧ a.px i j = v}

/-- The declarative comparison of C4: backgrounds coincide exactly and a
bijection between the attained nonzero label sets carries one map to the
other pointwise (same partition of the foreground). -/
def SameLabelingSpec (a b : Img) : Prop :=
  (∀ i < a.h, ∀ j < a.w, (a.px i j = 0 ↔ b.px i j = 0)) ∧
  ∃ f : Int → Int, Set.BijOn f (fgLabels a) (fgLabels b) ∧
    ∀ i < a.h, ∀ j < a.w, a.px i j ≠ 0 → f (a.px i j) = b.px i j

/-- Forward invariant of the comparator scan: whenever the state is still
`some m`, `m` is a partial bijection recording exactly the label pairs
seen so far, and every visited position is consistent with it. -/
def SLInv (a b : Img) (pre : List Pos) (st : Option (List (Int × Int))) :
    Prop :=
  ∀ m, st = some m →
    ((∀ p ∈ m, p.1 ≠ 0 ∧ p.2 ≠ 0) ∧
     (m.map Prod.snd).Nodup ∧
     (∀ p ∈ m, ∃ c ∈ pre, a.px c.1 c.2 = p.1 ∧ b.px c.1 c.2 = p.2) ∧
     (∀ c ∈ pre, (a.px c.1 c.2 = 0 ↔ b.px c.1 c.2 = 0) ∧
       (a.px c.1 c.2 ≠ 0 →
         m.lookup (a.px c.1 c.2) = some (b.px c.1 c.2))))

/-- Backward invariant: a bijection realizing `SameLabelingSpec` keeps
the scan alive, with the recorded pairs always lying on its graph. -/
def SLInvB (a b : Img) (f : Int → Int) (pre : List Pos)
    (st : Option (List (Int × Int))) : Prop :=
  ∃ m, st = some m ∧ ∀ p ∈ m, p.1 ∈ fgLabels a ∧ f p.1 = p.2

/-- Sample label maps for the C4 witness (same partition, different
label values). -/
def exSLa : Img := imgOfLL [[1, 0], [0, 2]]

def exSLb : Img := imgOfLL [[7, 0], [0, 5]]

/-- Python slice semantics of `slice(-rsize, None)` at line 215: since
`-0 == 0` in Python, `rsize = 0` selects the whole axis instead of an
empty slab. -/
def highStart (n rsize : Nat) : Nat := if rsize = 0 then 0 else n - rsize

/-- Indices selected on one axis by the two slabs `slice(rsize)` and
`slice(-rsize, None)` (lines 213-216). -/
def lowHigh (n rsize : Nat) : List Nat :=
  (List.range n).filter
    (fun i => decide (i < rsize) || decide (highStart n rsize ≤ i))

/-- All positions inspected by the dimension loop (lines 211-221): the
row slabs over all columns, then the column slabs over all rows. -/
def slabPositions (h w rsize : Nat) : List Pos :=
  ((lowHigh h rsize).flatMap (fun i => (List.range w).map (fun j => (i, j)))) ++
  ((List.range h).flatMap (fun i => (lowHigh w rsize).map (fun j => (i, j))))

/-- The `invalid` set (lines 210, 218-220): nonzero values seen in any
slab, deduplicated (`set.add`). -/
def dedupInt (l : List Int) : List Int :=
  l.foldl (fun acc x => if x ∈ acc then acc else acc ++ [x]) []

def invalidList (labeled : Img) (rsize : Nat) : List Int :=
  dedupInt (((slabPositions labeled.h labeled.w rsize).map
    (fun c => labeled.px c.1 c.2)).filter (fun v => v != 0))

/-- `remove_bordering` with `out=None` (lines 226-232): copy the input,
then `out *= (im != val)` for each collected value. -/
def removeBordering (labeled : Img) (rsize : Nat) : Img :=
  ⟨labeled.h, labeled.w, fun i j =>
    (invalidList labeled rsize).foldl
      (fun acc v => acc * (if labeled.px i j = v then 0 else 1))
      (labeled.px i j)⟩

/-- The full `remove_bordering` call including the deprecated `output=`
handling (lines 222-225): when `out` is omitted and `output=` is given,
line 224 formats the warning message with the undefined name `fname`, so
the call raises `NameError` before any output is produced. -/
def remove_bordering_call (labeled : Img) (rsize : Nat)
    (out output : Option Img) : Except String Img :=
  match out, output with
  | none, some _ => Except.error "NameError: name fname is not defined"
  | _, _ => Except.ok (removeBordering labeled rsize)

/-- C5's notion of an invalid (to-be-removed) label according to the
spec's wording: it appears within distance `rsize` of the low or high end
of either axis. -/
def BorderInvalid (L : Img) (rsize : Nat) (v : Int) : Prop :=
  v ≠ 0 ∧ ∃ a < L.h, ∃ b < L.w, L.px a b = v ∧
    (a < rsize ∨ L.h ≤ a + rsize ∨ b < rsize ∨ L.w ≤ b + rsize)

instance (L : Img) (rsize : Nat) (v : Int) :
    Decidable (BorderInvalid L rsize v) := by
  unfold BorderInvalid
  infer_instance

/-- 5×5 map with a single labeled pixel at (2,2) (C5 scenario). -/
def ex5 : Img := imgOfLL
  [[0, 0, 0, 0, 0], [0, 0, 0, 0, 0], [0, 0, 1, 0, 0],
   [0, 0, 0, 0, 0], [0, 0, 0, 0, 0]]

/-- `labeled.max()`: the largest label value. -/
def maxL (L : Img) : Nat :=
  ((rasterPos L.h L.w).map (vOf L)).foldl max 0

/-- Modelled from the spec: `mahotas.fullhistogram` (separate module, not
under `src/`) applied by `labeled_size` (lines 417-442) — the histogram
of label occurrence counts, one bin per value `0..max`. -/
def labeled_size (L : Img) : List Nat :=
  (List.range (maxL L + 1)).map
    (fun v => ((rasterPos L.h L.w).filter (fun c => decide (vOf L c = v))).length)

/-- Modelled from the spec: the kernel `_labeled.labeled_sum` (§4.5) — a
single pass updating one accumulator slot per label id, slot 0 (the
background) treated like any other; the wrapper (lines 346-367) sizes the
output as `labeled.max() + 1`. -/
def labeled_sum (V L : Img) : List Int :=
  (rasterPos L.h L.w).foldl
    (fun acc c => acc.set (vOf L c) (acc.getD (vOf L c) 0 + V.px c.1 c.2))
    (List.replicate (maxL L + 1) 0)

/-- Modelled from the spec (§4.7): reading an array at possibly
out-of-range (signed) indices under edge mode "constant" — out-of-bounds
reads give the constant 0 (the native `_labeled.borders` kernel is not
under `src/`). -/
def pxC (a : Img) (i j : Int) : Int :=
  if 0 ≤ i ∧ i < (a.h : Int) ∧ 0 ≤ j ∧ j < (a.w : Int) then a.px i.toNat j.toNat
  else 0

/-- Modelled from the spec (§4.7): `_labeled.borders(L, Bc, mode2int
constant)` — true at `p` iff some neighbour offset of `Bc` carries a value
different from `L[p]`; the wrapper (lines 292-295) clears the output
buffer first, so the result is a pure function of `L` and `Bc`.  The
centre offset of the structuring element is omitted here: its value never
differs from `L[p]`. -/
def bordersC (L : Img) (Bc : List (Int × Int)) : BImg :=
  ⟨L.h, L.w, fun i j =>
    Bc.any (fun o =>
      decide (pxC L ((i : Int) + o.1) ((j : Int) + o.2) ≠ L.px i j))⟩

/-- Modelled from the spec: `get_structuring_elem(·, 4)` is the 3×3 cross
and `get_structuring_elem(·, 8)` the full 3×3 square (centres omitted,
see `bordersC`). -/
def seOf (n : Nat) : List (Int × Int) := if n = 4 then crossSE else fullSE

/-- `bwperim(bw, n, mode="constant")` (lines 298-330): binarize `bw`,
then intersect the foreground mask with `borders` of the binarized
image. -/
def bwperim (bw : Img) (n : Nat) : BImg :=
  ⟨bw.h, bw.w, fun i j =>
    decide (bw.px i j ≠ 0) && (bordersC (binarize bw) (seOf n)).px i j⟩

/-- `perim.astype(np.uint8)` (line 488): the boolean perimeter mask as a
0/1 integer image. -/
def perimMask (bw : Img) (n : Nat) : Img :=
  ⟨bw.h, bw.w, fun i j => if (bwperim bw n).px i j then 1 else 0⟩

/-- Modelled from the spec: index reflection for `mahotas.convolve`'s
default "reflect" edge mode (`d c b a | a b c d | d c b a`), adequate for
the one-pixel overshoot a 3×3 kernel can produce. -/
def reflN (n : Nat) (i : Int) : Nat :=
  if i < 0 then (-i - 1).toNat
  else if i < (n : Int) then i.toNat
  else (2 * n - 1 - i).toNat

/-- The fixed 3×3 weight kernel `_perimeter_magic` (lines 447-450), as
(row offset, column offset, weight) triples; the kernel is symmetric, so
convolution and correlation coincide. -/
def magic : List (Int × Int × Nat) :=
  [(-1, -1, 10), (-1, 0, 2), (-1, 1, 10),
   (0, -1, 2), (0, 0, 1), (0, 1, 2),
   (1, -1, 10), (1, 0, 2), (1, 1, 10)]

/-- Modelled from the spec (§4.7): `mahotas.convolve` of a 0/1 image with
the 3×3 magic kernel, at one pixel (reflect edge mode, the `convolve`
default). -/
def convAt (P : Img) (i j : Nat) : Nat :=
  magic.foldl (fun s o =>
    s + o.2.2 * (P.px (reflN P.h ((i : Int) + o.1))
                      (reflN P.w ((j : Int) + o.2.1))).toNat) 0

/-- Largest convolution response over the image (`fullhistogram` sizes
its output as `max + 1`). -/
def maxConv (bw : Img) (n : Nat) : Nat :=
  ((rasterPos bw.h bw.w).map
    (fun q => convAt (perimMask bw n) q.1 q.2)).foldl max 0

/-- Modelled from the spec (§4.7): `fullhistogram` of the convolution
response image — bin `v` counts the pixels whose response is `v`. -/
def convHist (bw : Img) (n : Nat) : List Nat :=
  (List.range (maxConv bw n + 1)).map
    (fun v => ((rasterPos bw.h bw.w).filter
      (fun q => decide (convAt (perimMask bw n) q.1 q.2 = v))).length)

/-- The perimeter lookup table `_perimeter_values` (lines 491-494), with
each entry `a + b*sqrt 2` represented exactly as a pair `(a, b)` of
rationals: entries 5,7,15,17,25,27 ↦ 1; 21,33 ↦ sqrt 2; 13,23 ↦
(1+sqrt 2)/2; all others 0. -/
def perimTable : List (Nat × (ℚ × ℚ)) :=
  [(5, (1, 0)), (7, (1, 0)), (15, (1, 0)), (17, (1, 0)), (25, (1, 0)),
   (27, (1, 0)), (21, (0, 1)), (33, (0, 1)),
   (13, (1/2, 1/2)), (23, (1/2, 1/2))]

def perimValue (v : Nat) : ℚ × ℚ := (perimTable.lookup v).getD (0, 0)

/-- `perimeter(bwimage, n, mode="constant")` (lines 452-497): the dot
product of the convolution-response histogram with the lookup table,
truncated to `min 34 (histogram length)` bins; the exact value
`a + b*sqrt 2` is carried as the rational pair `(a, b)`. -/
def perimeterEst (bw : Img) (n : Nat) : ℚ × ℚ :=
  ((List.range (min 34 (convHist bw n).length)).map
    (fun v => ((((convHist bw n).getD v 0 : Nat) : ℚ) * (perimValue v).1,
               (((convHist bw n).getD v 0 : Nat) : ℚ) * (perimValue v).2))).sum

/-- A filled `k × k` square of ones with its top-left corner at `(r, c)`
inside an `H × W` array of zeros. -/
def squareImg (H W r c k : Nat) : Img :=
  ⟨H, W, fun i j => if r ≤ i ∧ i < r + k ∧ c ≤ j ∧ j < c + k then 1 else 0⟩

/-- Position `(i, j)` lies on the one-pixel boundary ring of the `k × k`
square with top-left corner `(r, c)`. -/
def OnRing (r c k i j : Nat) : Prop :=
  r ≤ i ∧ i < r + k ∧ c ≤ j ∧ j < c + k ∧
    (i = r ∨ i + 1 = r + k ∨ j = c ∨ j + 1 = c + k)

instance (r c k i j : Nat) : Decidable (OnRing r c k i j) := by
  unfold OnRing
  exact inferInstance

/-- The edge-handling modes accepted by `borders` (spec §5, `mode2int`). -/
inductive BorderMode
  | reflect
  | nearest
  | wrap
  | mirror
  | constant
  | ignore

/-- `output.fill(False)` (lines 265, 294): the buffer after clearing. -/
def fillFalse (out : BImg) : BImg := ⟨out.h, out.w, fun _ _ => false⟩

/-- Nearest-mode index clamping. -/
def clampIdx (n : Nat) (x : Int) : Nat :=
  if x < 0 then 0 else if x < (n : Int) then x.toNat else n - 1

/-- Wrap-mode index folding. -/
def wrapIdx (n : Nat) (x : Int) : Nat := (x % (n : Int)).toNat

/-- Mirror-mode index reflection (`d c b | a b c d | c b a`). -/
def mirrorIdx (n : Nat) (x : Int) : Nat :=
  if x < 0 then (-x).toNat
  else if x < (n : Int) then x.toNat
  else (2 * n - 2 - x).toNat

/-- Modelled from the spec (§4.7): reading `L` at a (possibly out-of-range)
signed index pair under a given edge mode; `none` marks an excluded
out-of-bounds read under "ignore" mode. -/
def readM (m : BorderMode) (L : Img) (x y : Int) : Option Int :=
  match m with
  | .constant => some (pxC L x y)
  | .nearest => some (L.px (clampIdx L.h x) (clampIdx L.w y))
  | .wrap => some (L.px (wrapIdx L.h x) (wrapIdx L.w y))
  | .reflect => some (L.px (reflN L.h x) (reflN L.w y))
  | .mirror => some (L.px (mirrorIdx L.h x) (mirrorIdx L.w y))
  | .ignore =>
    if 0 ≤ x ∧ x < (L.h : Int) ∧ 0 ≤ y ∧ y < (L.w : Int)
    then some (L.px x.toNat y.toNat) else none

/-- Modelled from the spec (§4.7): the per-pixel predicate of
`_labeled.borders` — true iff every neighbour read is admissible and some
neighbour carries a label different from the centre. -/
def bordersPx (L : Img) (Bc : List (Int × Int)) (m : BorderMode)
    (a b : Nat) : Bool :=
  (Bc.all (fun o => (readM m L ((a : Int) + o.1) ((b : Int) + o.2)).isSome)) &&
  (Bc.any (fun o =>
    match readM m L ((a : Int) + o.1) ((b : Int) + o.2) with
    | some v => decide (v ≠ L.px a b)
    | none => false))

/-- Modelled from the spec (§4.7): the per-pixel predicate of
`_labeled.border` — true iff the centre carries label `vi` (or `vj`) and
some in-bounds neighbour carries the other label. -/
def border_px (L : Img) (vi vj : Int) (Bc : List (Int × Int))
    (a b : Nat) : Bool :=
  Bc.any (fun o =>
    match offPos L.h L.w (a, b) o with
    | some q => (L.px a b == vi && L.px q.1 q.2 == vj) ||
                (L.px a b == vj && L.px q.1 q.2 == vi)
    | none => false)

/-- `border(labeled, i, j, Bc, out=...)` (lines 235-266): the wrapper
clears the supplied buffer with `fill(False)` and the kernel then writes
its per-pixel predicate into the cleared buffer. -/
def border_call (labeled : Img) (vi vj : Int) (Bc : List (Int × Int))
    (out : BImg) : BImg :=
  ⟨(fillFalse out).h, (fillFalse out).w,
   fun a b => (fillFalse out).px a b || border_px labeled vi vj Bc a b⟩

/-- `borders(labeled, Bc, out=..., mode=...)` (lines 268-295): the wrapper
clears the supplied buffer with `fill(False)` and the kernel then writes
its per-pixel predicate into the cleared buffer. -/
def borders_call (labeled : Img) (Bc : List (Int × Int)) (m : BorderMode)
    (out : BImg) : BImg :=
  ⟨(fillFalse out).h, (fillFalse out).w,
   fun a b => (fillFalse out).px a b || bordersPx labeled Bc m a b⟩

def exOutT : BImg := ⟨2, 2, fun _ _ => true⟩

def exOutF : BImg := ⟨2, 2, fun i j => i == j⟩

theorem mem_rasterPos {h w : Nat} {c : Pos} :
    c ∈ rasterPos h w ↔ c.1 < h ∧ c.2 < w := by
  obtain ⟨i, j⟩ := c
  simp [rasterPos, List.mem_flatMap]

theorem rasterPos_sorted (h w : Nat) : (rasterPos h w).Pairwise rLt := by
  unfold rasterPos
  apply List.pairwise_flatMap.2
  refine ⟨fun i _ => ?_, ?_⟩
  · rw [List.pairwise_map]
    refine (List.pairwise_lt_range w).imp ?_
    intro a b hab
    exact Or.inr ⟨rfl, hab⟩
  · refine (List.pairwise_lt_range h).imp ?_
    intro a b hab x hx y hy
    simp only [List.mem_map, List.mem_range] at hx hy
    obtain ⟨ja, -, rfl⟩ := hx
    obtain ⟨jb, -, rfl⟩ := hy
    exact Or.inl hab

theorem rasterPos_nodup (h w : Nat) : (rasterPos h w).Nodup := by
  refine (rasterPos_sorted h w).imp ?_
  intro a b hab heq
  subst heq
  rcases hab with h1 | ⟨h1, h2⟩ <;> omega

/-- In a raster-ordered traversal, everything strictly raster-earlier than
the element currently being visited has already been visited. -/
theorem mem_prefix_of_rLt {h w : Nat} {pre post : List Pos} {c q : Pos}
    (hfull : rasterPos h w = pre ++ c :: post)
    (hq : q ∈ rasterPos h w) (hlt : rLt q c) : q ∈ pre := by
  have hsorted := rasterPos_sorted h w
  rw [hfull] at hsorted hq
  rcases List.mem_append.1 hq with hpre | htail
  · exact hpre
  · exfalso
    rcases List.mem_cons.1 htail with rfl | hpost
    · rcases hlt with h1 | ⟨h1, h2⟩ <;> omega
    · have := List.rel_of_pairwise_cons (List.pairwise_append.1 hsorted).2.1 hpost
      rcases this with h1 | ⟨h1, h2⟩ <;> rcases hlt with h3 | ⟨h3, h4⟩ <;> omega

/-- Generic driver: to establish an invariant of a left fold, it suffices
to show each step preserves it, where the step hypothesis may use the fact
that the processed elements form a prefix of the full traversal list. -/
theorem foldl_inv {α β : Type} (step : β → α → β) (P : List α → β → Prop)
    (full : List α)
    (hstep : ∀ pre c post st, full = pre ++ c :: post → P pre st →
      P (pre ++ [c]) (step st c)) :
    ∀ l pre st, full = pre ++ l → P pre st → P full (l.foldl step st) := by
  intro l
  induction l with
  | nil => intro pre st hfull hP; simpa [hfull] using hP
  | cons c l ih =>
    intro pre st hfull hP
    have h1 : full = (pre ++ [c]) ++ l := by simp [hfull]
    have h2 := hstep pre c l st hfull hP
    simpa using ih (pre ++ [c]) (step st c) h1 h2

/-! ### Dense renumbering (Canonicalizer core)

Modelled from the spec: the native kernel `_labeled.relabel` (not under
`src/`) and pass 2 of `_labeled.label` both remap a possibly sparse set of
nonzero values to the dense range `1..K` in order of first appearance
during a raster scan, leaving 0 (background) fixed. -/

theorem lookup_isSome_keys {l : List (Nat × Nat)} {x : Nat} :
    (l.lookup x).isSome ↔ x ∈ l.map Prod.fst := by
  rw [List.lookup_isSome_iff]
  constructor
  · rintro ⟨p, hp, he⟩
    exact List.mem_map.2 ⟨p, hp, (beq_iff_eq.1 he).symm⟩
  · intro h
    obtain ⟨p, hp, he⟩ := List.mem_map.1 h
    exact ⟨p, hp, beq_iff_eq.2 he.symm⟩

theorem lookup_cons_ne {β : Type} {x k : Nat} {val : β} {l : List (Nat × β)}
    (h : x ≠ k) : ((k, val) :: l).lookup x = l.lookup x := by
  rw [List.lookup_cons, beq_eq_false_iff_ne.2 h]

theorem enum1_keys (l : List Nat) : (enum1 l).map Prod.fst = l := by
  simp [enum1, List.map_fst_zip, List.length_range']

theorem enum1_length (l : List Nat) : (enum1 l).length = l.length := by
  simp [enum1]

theorem enum1_concat (l : List Nat) (x : Nat) :
    enum1 (l ++ [x]) = enum1 l ++ [(x, l.length + 1)] := by
  unfold enum1
  rw [List.length_append, List.length_singleton, List.range'_1_concat,
    List.zip_append (by simp)]
  simp [Nat.add_comm]

theorem rnVStep_enum1 (D : List Nat) (x : Nat) :
    rnVStep (enum1 D) x = enum1 (dStep D x) := by
  unfold rnVStep dStep
  by_cases h0 : x = 0
  · simp [h0]
  · simp only [h0, if_false]
    by_cases hm : x ∈ D
    · rw [if_pos (lookup_isSome_keys.2 (by rw [enum1_keys]; exact hm)), if_pos hm]
    · rw [if_neg (fun hs => hm (by rw [← enum1_keys D]; exact lookup_isSome_keys.1 hs)),
        if_neg hm, enum1_concat, enum1_length]

theorem renumAssoc_eq_enum1 (l : List Nat) : renumAssoc l = enum1 (dedupNZ l) := by
  suffices h : ∀ (m : List Nat) (D : List Nat),
      m.foldl rnVStep (enum1 D) = enum1 (m.foldl dStep D) by
    simpa [renumAssoc, dedupNZ, enum1] using h l []
  intro m
  induction m with
  | nil => intro D; rfl
  | cons x m ih =>
    intro D
    rw [List.foldl_cons, List.foldl_cons, rnVStep_enum1]
    exact ih _

theorem dFold_extend (l : List Nat) : ∀ acc, ∃ t, l.foldl dStep acc = acc ++ t := by
  induction l with
  | nil => exact fun acc => ⟨[], by simp⟩
  | cons x l ih =>
    intro acc
    obtain ⟨t, ht⟩ := ih (dStep acc x)
    rw [List.foldl_cons, ht]
    unfold dStep
    split_ifs
    · exact ⟨t, rfl⟩
    · exact ⟨t, rfl⟩
    · exact ⟨x :: t, by simp⟩

theorem mem_dStep {acc : List Nat} {x y : Nat} :
    y ∈ dStep acc x ↔ y ∈ acc ∨ (y ≠ 0 ∧ y = x) := by
  unfold dStep
  split_ifs with h1 h2
  · subst h1
    constructor
    · exact Or.inl
    · rintro (h | ⟨h0, rfl⟩)
      · exact h
      · exact absurd rfl h0
  · constructor
    · exact Or.inl
    · rintro (h | ⟨h0, rfl⟩)
      · exact h
      · exact h2
  · simp only [List.mem_append, List.mem_singleton]
    constructor
    · rintro (h | rfl)
      · exact Or.inl h
      · exact Or.inr ⟨h1, rfl⟩
    · rintro (h | ⟨h0, rfl⟩)
      · exact Or.inl h
      · exact Or.inr rfl

theorem mem_dFold {l : List Nat} : ∀ {acc : List Nat} {y : Nat},
    y ∈ l.foldl dStep acc ↔ y ∈ acc ∨ (y ≠ 0 ∧ y ∈ l) := by
  induction l with
  | nil => simp
  | cons x l ih =>
    intro acc y
    rw [List.foldl_cons, ih, mem_dStep]
    constructor
    · rintro ((h | ⟨h0, rfl⟩) | ⟨h0, h⟩)
      · exact Or.inl h
      · exact Or.inr ⟨h0, by simp⟩
      · exact Or.inr ⟨h0, by simp [h]⟩
    · rintro (h | ⟨h0, h⟩)
      · exact Or.inl (Or.inl h)
      · rcases List.mem_cons.1 h with rfl | h
        · exact Or.inl (Or.inr ⟨h0, rfl⟩)
        · exact Or.inr ⟨h0, h⟩

theorem mem_dedupNZ {l : List Nat} {y : Nat} :
    y ∈ dedupNZ l ↔ y ≠ 0 ∧ y ∈ l := by
  rw [dedupNZ, mem_dFold]; simp

theorem dFold_nodup {l : List Nat} : ∀ {acc : List Nat},
    acc.Nodup → (l.foldl dStep acc).Nodup := by
  induction l with
  | nil => exact fun h => h
  | cons x l ih =>
    intro acc hacc
    rw [List.foldl_cons]
    refine ih ?_
    unfold dStep
    split_ifs with h1 h2
    · exact hacc
    · exact hacc
    · simp only [List.nodup_append, List.nodup_cons, List.not_mem_nil,
        not_false_iff, List.nodup_nil, and_true, true_and]
      simp only [List.disjoint_singleton]
      exact ⟨hacc, h2⟩

theorem dedupNZ_nodup (l : List Nat) : (dedupNZ l).Nodup :=
  dFold_nodup List.nodup_nil

/-- `lookup` on a value list zipped with consecutive ids returns the id at
the first occurrence of the key. -/
theorem zip_range'_lookup : ∀ (D : List Nat) (k : Nat) {x : Nat}, x ∈ D →
    (D.zip (List.range' k D.length)).lookup x = some (k + D.indexOf x) := by
  intro D
  induction D with
  | nil => intro k x hx; simp at hx
  | cons d D ih =>
    intro k x hx
    rw [List.length_cons, List.range'_succ, List.zip_cons_cons]
    by_cases hxd : x = d
    · subst hxd
      rw [List.lookup_cons_self, List.indexOf_cons_self]
      rfl
    · rcases List.mem_cons.1 hx with rfl | hmem
      · exact absurd rfl hxd
      · rw [lookup_cons_ne hxd, ih (k + 1) hmem,
          List.indexOf_cons_ne _ (Ne.symm hxd)]
        congr 1
        omega

theorem enum1_lookup {D : List Nat} {x : Nat} (hx : x ∈ D) :
    (enum1 D).lookup x = some (D.indexOf x + 1) := by
  rw [enum1, zip_range'_lookup D 1 hx, Nat.add_comm]

theorem rnMap_eq_indexOf {v : Pos → Nat} {ps : List Pos} {c : Pos}
    (hc : c ∈ ps) (hv : v c ≠ 0) :
    rnMap v ps c = (dedupNZ (ps.map v)).indexOf (v c) + 1 := by
  have hmem : v c ∈ dedupNZ (ps.map v) :=
    mem_dedupNZ.2 ⟨hv, List.mem_map_of_mem v hc⟩
  rw [rnMap, if_neg hv, renumAssoc_eq_enum1, enum1_lookup hmem, Option.getD_some]

theorem rnCount_eq (v : Pos → Nat) (ps : List Pos) :
    rnCount v ps = (dedupNZ (ps.map v)).length := by
  rw [rnCount, renumAssoc_eq_enum1, enum1_length]

theorem indexOf_append_left {x : Nat} : ∀ {l₁ : List Nat} (l₂ : List Nat),
    x ∈ l₁ → (l₁ ++ l₂).indexOf x = l₁.indexOf x := by
  intro l₁
  induction l₁ with
  | nil => intro l₂ hx; simp at hx
  | cons a l ih =>
    intro l₂ hx
    by_cases hxa : x = a
    · subst hxa; simp [List.indexOf_cons_self]
    · rcases List.mem_cons.1 hx with rfl | hmem
      · exact absurd rfl hxa
      · rw [List.cons_append, List.indexOf_cons_ne _ (by simpa using Ne.symm hxa),
          List.indexOf_cons_ne _ (by simpa using Ne.symm hxa), ih l₂ hmem]

theorem indexOf_append_right {x : Nat} : ∀ {l₁ : List Nat} (l₂ : List Nat),
    x ∉ l₁ → (l₁ ++ l₂).indexOf x = l₁.length + l₂.indexOf x := by
  intro l₁
  induction l₁ with
  | nil => intro l₂ _; simp
  | cons a l ih =>
    intro l₂ hx
    have hxa : x ≠ a := fun h => hx (h ▸ List.mem_cons_self a l)
    rw [List.cons_append, List.indexOf_cons_ne _ (by simpa using Ne.symm hxa),
      ih l₂ (fun h => hx (List.mem_cons_of_mem a h)), List.length_cons]
    omega

theorem nodup_indexOf_get : ∀ {D : List Nat}, D.Nodup →
    ∀ (n : Nat) (hn : n < D.length), D.indexOf (D.get ⟨n, hn⟩) = n := by
  intro D
  induction D with
  | nil => intro _ n hn; simp at hn
  | cons a D ih =>
    intro hD n hn
    match n with
    | 0 => simp [List.indexOf_cons_self]
    | Nat.succ m =>
      have hm : m < D.length := by simpa using hn
      have hmem : D.get ⟨m, hm⟩ ∈ D := List.get_mem D m hm
      have hne : D.get ⟨m, hm⟩ ≠ a := by
        intro h
        exact (List.nodup_cons.1 hD).1 (h ▸ hmem)
      show (a :: D).indexOf (D.get ⟨m, hm⟩) = m + 1
      rw [List.indexOf_cons_ne _ (by simpa using Ne.symm hne),
        ih (List.nodup_cons.1 hD).2 m hm]

/-! ### Equivalence-Resolution Engine and Labeling Engine

Modelled from the spec: the native kernel `_labeled.label` (not under
`src/`) — §4.1/§4.2: union-find over provisional ids with "smaller ID
wins", and a two-pass raster-scan labeling with arbitrary structuring
elements.  Instantiated at 2-D arrays. -/

/-- `getD` on a list extended by one element, index below the old length. -/
theorem getD_append_lt {α : Type} {p : List α} {x d : α} {k : Nat}
    (h : k < p.length) : (p ++ [x]).getD k d = p.getD k d := by
  simp [List.getD_eq_getElem?_getD, List.getElem?_append_left h]

/-- `getD` on a list extended by one element, at the old length. -/
theorem getD_append_len {α : Type} {p : List α} {x d : α} :
    (p ++ [x]).getD p.length d = x := by
  simp [List.getD_eq_getElem?_getD, List.getElem?_concat_length]

/-- `getD` past the end of a list extended by one element. -/
theorem getD_append_gt {α : Type} {p : List α} {x d : α} {k : Nat}
    (h : p.length < k) : (p ++ [x]).getD k d = d := by
  rw [List.getD_eq_getElem?_getD, List.getElem?_eq_none (by simp; omega)]
  rfl

theorem getD_set_ne {α : Type} {p : List α} {j k : Nat} {v d : α} (h : j ≠ k) :
    (p.set j v).getD k d = p.getD k d := by
  simp [List.getD_eq_getElem?_getD, List.getElem?_set_ne h]

theorem getD_set_self {α : Type} {p : List α} {j : Nat} {v d : α}
    (h : j < p.length) : (p.set j v).getD j d = v := by
  simp [List.getD_eq_getElem?_getD, List.getElem?_set_self h]

theorem ufFind_zero {p : List Nat} (hp : UFPos p) :
    ∀ fuel, ufFind p fuel 0 = 0 := by
  intro fuel
  cases fuel with
  | zero => rfl
  | succ n =>
    rw [show ufFind p (n + 1) 0 =
      if p.getD 0 0 = 0 then 0 else ufFind p n (p.getD 0 0) from rfl,
      hp.1, if_pos rfl]

theorem ufFind_pos {p : List Nat} (hp : UFPos p) :
    ∀ fuel i, 1 ≤ i → 1 ≤ ufFind p fuel i := by
  intro fuel
  induction fuel with
  | zero => intro i hi; exact hi
  | succ n ih =>
    intro i hi
    simp only [ufFind]
    split
    · exact hi
    · exact ih _ (hp.2 i hi)

theorem ufUnion_pos {p : List Nat} {a b : Nat} (hp : UFPos p)
    (ha : 1 ≤ a) (hb : 1 ≤ b) :
    UFPos (ufUnion p a b) ∧ (ufUnion p a b).length = p.length := by
  unfold ufUnion
  have hra := ufFind_pos hp p.length a ha
  have hrb := ufFind_pos hp p.length b hb
  split
  · exact ⟨hp, rfl⟩
  · refine ⟨⟨?_, ?_⟩, by simp⟩
    · rw [getD_set_ne (by omega)]; exact hp.1
    · intro k hk
      by_cases hkm : max (ufFind p p.length a) (ufFind p p.length b) = k
      · by_cases hlt : k < p.length
        · rw [← hkm] at hlt ⊢
          rw [getD_set_self hlt]; omega
        · rw [List.getD_eq_getElem?_getD, List.getElem?_eq_none (by simp; omega)]
          simpa using hk
      · rw [getD_set_ne hkm]; exact hp.2 k hk

theorem foldl_ufUnion_pos (m : Nat) (hm : 1 ≤ m) :
    ∀ (ls : List Nat) (p : List Nat), UFPos p → (∀ x ∈ ls, 1 ≤ x) →
      UFPos (ls.foldl (fun u x => ufUnion u m x) p) ∧
      (ls.foldl (fun u x => ufUnion u m x) p).length = p.length := by
  intro ls
  induction ls with
  | nil => exact fun p hp _ => ⟨hp, rfl⟩
  | cons x ls ih =>
    intro p hp hls
    rw [List.foldl_cons]
    obtain ⟨h1, h2⟩ := ufUnion_pos hp hm (hls x (List.mem_cons_self x ls))
    obtain ⟨h3, h4⟩ := ih _ h1 (fun y hy => hls y (List.mem_cons_of_mem x hy))
    exact ⟨h3, h4.trans h2⟩

theorem foldl_min_pos : ∀ (ls : List Nat) (l : Nat), 1 ≤ l →
    (∀ x ∈ ls, 1 ≤ x) → 1 ≤ ls.foldl min l := by
  intro ls
  induction ls with
  | nil => exact fun l hl _ => hl
  | cons x ls ih =>
    intro l hl hls
    rw [List.foldl_cons]
    refine ih _ ?_ (fun y hy => hls y (List.mem_cons_of_mem x hy))
    have := hls x (List.mem_cons_self x ls)
    omega

theorem offPos_eq_none {h w : Nat} {c : Pos} {o : Int × Int}
    (hc : (c.1 : Int) + o.1 < 0 ∨ (h : Int) ≤ (c.1 : Int) + o.1 ∨
          (c.2 : Int) + o.2 < 0 ∨ (w : Int) ≤ (c.2 : Int) + o.2) :
    offPos h w c o = none := by
  rw [offPos, if_neg (by omega)]

theorem offPos_eq_some {h w : Nat} {c q : Pos} {o : Int × Int}
    (h1 : (q.1 : Int) = (c.1 : Int) + o.1) (h2 : (q.2 : Int) = (c.2 : Int) + o.2)
    (hq1 : q.1 < h) (hq2 : q.2 < w) :
    offPos h w c o = some q := by
  rw [offPos, if_pos (by omega)]
  exact congrArg some (Prod.ext (by omega) (by omega))

theorem mem_causal {Bc : List (Int × Int)} {o : Int × Int} :
    o ∈ causal Bc ↔ o ∈ Bc ∧ (o.1 < 0 ∨ (o.1 = 0 ∧ o.2 < 0)) := by
  unfold causal
  rw [List.mem_filter]
  simp

theorem mem_fgNbrs_iff {bin : Img} {Bc : List (Int × Int)} {c q : Pos} :
    q ∈ fgNbrs bin Bc c ↔
      bin.px q.1 q.2 ≠ 0 ∧ q.1 < bin.h ∧ q.2 < bin.w ∧
      ∃ o ∈ causal Bc, (q.1 : Int) = (c.1 : Int) + o.1 ∧
        (q.2 : Int) = (c.2 : Int) + o.2 := by
  unfold fgNbrs
  rw [List.mem_filter, List.mem_filterMap]
  constructor
  · rintro ⟨⟨o, ho, hoff⟩, hfg⟩
    rw [offPos] at hoff
    split at hoff
    · next hb =>
      injection hoff with hq
      subst hq
      refine ⟨by simpa using hfg, by omega, by omega, o, ho, by omega, by omega⟩
    · exact absurd hoff (by simp)
  · rintro ⟨hfg, h1, h2, o, ho, he1, he2⟩
    exact ⟨⟨o, ho, offPos_eq_some he1 he2 h1 h2⟩, by simpa using hfg⟩

theorem mem_fgNbrs {bin : Img} {Bc : List (Int × Int)} {c q : Pos}
    (hq : q ∈ fgNbrs bin Bc c) :
    q.1 < bin.h ∧ q.2 < bin.w ∧ bin.px q.1 q.2 ≠ 0 ∧ rLt q c := by
  obtain ⟨hfg, h1, h2, o, ho, he1, he2⟩ := mem_fgNbrs_iff.1 hq
  have hcaus : o.1 < 0 ∨ (o.1 = 0 ∧ o.2 < 0) := (mem_causal.1 ho).2
  refine ⟨h1, h2, hfg, ?_⟩
  rcases hcaus with hc | ⟨hc1, hc2⟩
  · exact Or.inl (by omega)
  · exact Or.inr ⟨by omega, by omega⟩

/-- Updating the provisional label map at the voxel being visited with a
positive label preserves the two label-map clauses of the pass-1
invariant. -/
theorem lab_update_inv {bin : Img} {pre : List Pos} {c : Pos} {f : Pos → Nat}
    {n : Nat}
    (hvis : ∀ q ∈ pre, (f q = 0 ↔ bin.px q.1 q.2 = 0))
    (hunvis : ∀ q, q ∉ pre → f q = 0)
    (hn : 1 ≤ n) (hbg : bin.px c.1 c.2 ≠ 0) :
    (∀ q ∈ pre ++ [c], ((if q = c then n else f q) = 0 ↔ bin.px q.1 q.2 = 0)) ∧
    (∀ q, q ∉ pre ++ [c] → (if q = c then n else f q) = 0) := by
  constructor
  · intro q hq
    by_cases hqc : q = c
    · subst hqc
      rw [if_pos rfl]
      constructor
      · intro h; omega
      · intro h; exact absurd h hbg
    · rw [if_neg hqc]
      rcases List.mem_append.1 hq with hq | hq
      · exact hvis q hq
      · exact absurd (List.mem_singleton.1 hq) hqc
  · intro q hq
    rw [if_neg (fun h => hq (by rw [h]; exact List.mem_append_right _ (List.mem_singleton_self c)))]
    exact hunvis q (fun h => hq (List.mem_append_left _ h))

theorem p1step_inv (bin : Img) (Bc : List (Int × Int)) {pre post : List Pos}
    {c : Pos} {st : LSt}
    (hfull : rasterPos bin.h bin.w = pre ++ c :: post)
    (hinv : LabInv bin pre st) :
    LabInv bin (pre ++ [c]) (p1step bin Bc st c) := by
  obtain ⟨hUF, hlen, hvis, hunvis⟩ := hinv
  have hcpre : c ∉ pre := by
    have nd := rasterPos_nodup bin.h bin.w
    rw [hfull] at nd
    intro hc
    exact (List.nodup_append.1 nd).2.2 hc (List.mem_cons_self c post)
  unfold p1step
  by_cases hbg : bin.px c.1 c.2 = 0
  · rw [if_pos hbg]
    refine ⟨hUF, hlen, ?_, ?_⟩
    · intro q hq
      rcases List.mem_append.1 hq with hq | hq
      · exact hvis q hq
      · rw [List.mem_singleton.1 hq]
        rw [hunvis c hcpre]
        exact ⟨fun _ => hbg, fun _ => rfl⟩
    · intro q hq
      exact hunvis q (fun hq' => hq (List.mem_append_left _ hq'))
  · rw [if_neg hbg]
    -- every collected neighbour label is positive
    have hnbr : ∀ x ∈ (fgNbrs bin Bc c).map st.lab, 1 ≤ x := by
      intro x hx
      obtain ⟨q, hq, rfl⟩ := List.mem_map.1 hx
      obtain ⟨hq1, hq2, hq3, hq4⟩ := mem_fgNbrs hq
      have hqps : q ∈ rasterPos bin.h bin.w := mem_rasterPos.2 ⟨hq1, hq2⟩
      have hqpre : q ∈ pre := mem_prefix_of_rLt hfull hqps hq4
      have := (hvis q hqpre).not
      omega
    cases hmatch : (fgNbrs bin Bc c).map st.lab with
    | nil =>
      obtain ⟨hv', hu'⟩ := lab_update_inv hvis hunvis hlen hbg
      refine ⟨⟨?_, ?_⟩, by simp, hv', hu'⟩
      · rw [getD_append_lt (by omega)]; exact hUF.1
      · intro k hk
        rcases Nat.lt_trichotomy k st.uf.length with h | h | h
        · rw [getD_append_lt h]; exact hUF.2 k hk
        · subst h; rw [getD_append_len]; omega
        · rw [getD_append_gt h]; exact hk
    | cons l ls =>
      have hall : ∀ x ∈ l :: ls, 1 ≤ x := by rw [← hmatch]; exact hnbr
      have hm : 1 ≤ ls.foldl min l :=
        foldl_min_pos ls l (hall l (List.mem_cons_self l ls))
          (fun x hx => hall x (List.mem_cons_of_mem l hx))
      obtain ⟨hUF', hlen'⟩ :=
        foldl_ufUnion_pos (ls.foldl min l) hm (l :: ls) st.uf hUF hall
      obtain ⟨hv', hu'⟩ := lab_update_inv hvis hunvis hm hbg
      exact ⟨hUF', le_of_le_of_eq hlen hlen'.symm, hv', hu'⟩

theorem p1_inv (bin : Img) (Bc : List (Int × Int)) :
    LabInv bin (rasterPos bin.h bin.w) (p1 bin Bc) := by
  have hbase : LabInv bin [] (⟨[0], fun _ => 0⟩ : LSt) := by
    refine ⟨⟨rfl, ?_⟩, by simp, by simp, fun _ _ => rfl⟩
    intro k hk
    match k, hk with
    | k + 1, _ =>
      rw [List.getD_eq_getElem?_getD, List.getElem?_eq_none (by simp)]
      simp
  have := foldl_inv (p1step bin Bc) (LabInv bin) (rasterPos bin.h bin.w)
    (fun pre c post st hfull hP => p1step_inv bin Bc hfull hP)
    (rasterPos bin.h bin.w) [] ⟨[0], fun _ => 0⟩ rfl hbase
  exact this

theorem rnMap_ne_zero {v : Pos → Nat} {ps : List Pos} {c : Pos}
    (hc : c ∈ ps) (hv : v c ≠ 0) : rnMap v ps c ≠ 0 := by
  rw [rnMap_eq_indexOf hc hv]
  omega

/-- The resolved representative of a voxel is 0 iff its provisional label
is 0 (given the parent-array invariant). -/
theorem ufFind_zero_iff {p : List Nat} (hp : UFPos p) (fuel i : Nat) :
    ufFind p fuel i = 0 ↔ i = 0 := by
  constructor
  · intro h
    by_contra hi
    have := ufFind_pos hp fuel i (by omega)
    omega
  · rintro rfl
    exact ufFind_zero hp fuel

/-- The final label of an in-bounds voxel is 0 iff the binarized input is
0 there. -/
theorem labelCore_zero_iff {bin : Img} {Bc : List (Int × Int)} {i j : Nat}
    (hi : i < bin.h) (hj : j < bin.w) :
    (labelCore bin Bc).1.px i j = 0 ↔ bin.px i j = 0 := by
  obtain ⟨hUF, hlen, hvis, hunvis⟩ := p1_inv bin Bc
  have hps : ((i, j) : Pos) ∈ rasterPos bin.h bin.w := mem_rasterPos.2 ⟨hi, hj⟩
  have hlab := hvis (i, j) hps
  simp only [labelCore]
  rw [Int.natCast_eq_zero]
  constructor
  · intro h
    by_contra hbin
    have hv : labelV bin Bc (i, j) ≠ 0 := by
      rw [labelV]
      intro h0
      exact hbin (hlab.1 ((ufFind_zero_iff hUF _ _).1 h0))
    exact rnMap_ne_zero hps hv h
  · intro h
    have hv0 : labelV bin Bc (i, j) = 0 := by
      rw [labelV, hlab.2 h]
      exact ufFind_zero hUF _
    rw [rnMap, if_pos hv0]

theorem binarize_zero_iff (a : Img) (i j : Nat) :
    (binarize a).px i j = 0 ↔ a.px i j = 0 := by
  simp only [binarize]
  split_ifs with h
  · simp [h]
  · simp [h]

/-- C1: for every input array and every structuring element, `label`
returns a map of the input's shape that is 0 exactly where the input is 0
(at every in-bounds position); with a caller-supplied output buffer of
matching shape, line 57 (`output[:] = (array != 0)`) binarizes the buffer
before labeling, so the result never depends on the buffer's prior
contents. -/
theorem label_background_coincidence (array : Img) (Bc : List (Int × Int))
    (out : Img) (i j : Nat) (hi : i < array.h) (hj : j < array.w) :
    ((label array Bc).1.h = array.h ∧ (label array Bc).1.w = array.w) ∧
    ((label array Bc).1.px i j = 0 ↔ array.px i j = 0) ∧
    (out.h = array.h → out.w = array.w →
      labelWithOut array Bc out = label array Bc) := by
  refine ⟨⟨rfl, rfl⟩, ?_, ?_⟩
  · exact (@labelCore_zero_iff (binarize array) _ _ _ hi hj).trans
      (binarize_zero_iff array i j)
  · intro hh hw
    rw [labelWithOut, label,
      show (⟨out.h, out.w, fun i j => if array.px i j = 0 then 0 else 1⟩ : Img) =
        binarize array from by rw [hh, hw]; rfl]

theorem pre_rLt {h w : Nat} {pre post : List Pos} {c q : Pos}
    (hfull : rasterPos h w = pre ++ c :: post) (hq : q ∈ pre) : rLt q c := by
  have hs := rasterPos_sorted h w
  rw [hfull] at hs
  exact (List.pairwise_append.1 hs).2.2 q hq c (List.mem_cons_self c post)

theorem c_mem_of_full {h w : Nat} {pre post : List Pos} {c : Pos}
    (hfull : rasterPos h w = pre ++ c :: post) : c ∈ rasterPos h w := by
  rw [hfull]; exact List.mem_append_right _ (List.mem_cons_self c post)

/-- No causal offset of any structuring element lands in bounds from the
origin. -/
theorem fgNbrs_origin {bin : Img} {Bc : List (Int × Int)} {c : Pos}
    (h1 : c.1 = 0) (h2 : c.2 = 0) : fgNbrs bin Bc c = [] := by
  rw [List.eq_nil_iff_forall_not_mem]
  intro q hq
  obtain ⟨-, -, -, o, ho, he1, he2⟩ := mem_fgNbrs_iff.1 hq
  have hoC := (mem_causal.1 ho).2
  omega

theorem p1_allBg {bin : Img} (Bc : List (Int × Int))
    (h0 : ∀ i < bin.h, ∀ j < bin.w, bin.px i j = 0) :
    p1 bin Bc = ⟨[0], fun _ => 0⟩ := by
  unfold p1
  have key : ∀ (l : List Pos), (∀ c ∈ l, c.1 < bin.h ∧ c.2 < bin.w) →
      l.foldl (p1step bin Bc) ⟨[0], fun _ => 0⟩ = ⟨[0], fun _ => 0⟩ := by
    intro l
    induction l with
    | nil => intro _; rfl
    | cons c l ih =>
      intro hl
      have hc := hl c (List.mem_cons_self c l)
      rw [List.foldl_cons,
        show p1step bin Bc ⟨[0], fun _ => 0⟩ c = ⟨[0], fun _ => 0⟩ from by
          unfold p1step; rw [if_pos (h0 c.1 hc.1 c.2 hc.2)]]
      exact ih (fun q hq => hl q (List.mem_cons_of_mem c hq))
  exact key _ (fun c hc => mem_rasterPos.1 hc)

theorem dFold_const_zero : ∀ (l : List Nat) (acc : List Nat),
    (∀ x ∈ l, x = 0) → l.foldl dStep acc = acc := by
  intro l
  induction l with
  | nil => intro acc _; rfl
  | cons x t ih =>
    intro acc hall
    rw [List.foldl_cons,
      show dStep acc x = acc from by
        rw [hall x (List.mem_cons_self x t)]; rfl]
    exact ih acc (fun y hy => hall y (List.mem_cons_of_mem x hy))

theorem label_allBg_count (a : Img) (Bc : List (Int × Int))
    (h0 : ∀ i < a.h, ∀ j < a.w, a.px i j = 0) :
    (label a Bc).2 = 0 := by
  have hb : ∀ i < a.h, ∀ j < a.w, (binarize a).px i j = 0 := fun i hi j hj => by
    simp [binarize, h0 i hi j hj]
  show rnCount (labelV (binarize a) Bc) (rasterPos a.h a.w) = 0
  rw [rnCount_eq]
  have hv : ∀ x ∈ (rasterPos a.h a.w).map (labelV (binarize a) Bc), x = 0 := by
    intro x hx
    obtain ⟨c, hc, rfl⟩ := List.mem_map.1 hx
    rw [labelV, p1_allBg Bc hb]
    rfl
  rw [dedupNZ, dFold_const_zero _ _ hv]
  rfl

/-- Equation lemma: pass-1 step on a background voxel. -/
theorem p1step_bg {bin : Img} {Bc : List (Int × Int)} {st : LSt} {c : Pos}
    (h : bin.px c.1 c.2 = 0) : p1step bin Bc st c = st := by
  unfold p1step; rw [if_pos h]

/-- Equation lemma: pass-1 step on a foreground voxel with no visited
foreground neighbour (fresh provisional label). -/
theorem p1step_fresh {bin : Img} {Bc : List (Int × Int)} {st : LSt} {c : Pos}
    (h : bin.px c.1 c.2 ≠ 0) (hn : (fgNbrs bin Bc c).map st.lab = []) :
    p1step bin Bc st c =
      ⟨st.uf ++ [st.uf.length],
       fun q => if q = c then st.uf.length else st.lab q⟩ := by
  unfold p1step; rw [if_neg h, hn]

/-- Equation lemma: pass-1 step on a foreground voxel with visited
foreground neighbours (minimum label + unions). -/
theorem p1step_merge {bin : Img} {Bc : List (Int × Int)} {st : LSt} {c : Pos}
    {l : Nat} {ls : List Nat}
    (h : bin.px c.1 c.2 ≠ 0) (hm : (fgNbrs bin Bc c).map st.lab = l :: ls) :
    p1step bin Bc st c =
      ⟨(l :: ls).foldl (fun u x => ufUnion u (ls.foldl min l) x) st.uf,
       fun q => if q = c then ls.foldl min l else st.lab q⟩ := by
  unfold p1step; rw [if_neg h, hm]

theorem foldl_min_all_eq {k : Nat} : ∀ (ls : List Nat) (l : Nat), l = k →
    (∀ x ∈ ls, x = k) → ls.foldl min l = k := by
  intro ls
  induction ls with
  | nil => intro l hl _; exact hl
  | cons x t ih =>
    intro l hl hall
    rw [List.foldl_cons]
    exact ih _ (by rw [hl, hall x (List.mem_cons_self x t)]; exact Nat.min_self k)
      (fun y hy => hall y (List.mem_cons_of_mem x hy))

theorem foldl_ufUnion_one : ∀ (ls : List Nat), (∀ x ∈ ls, x = 1) →
    ls.foldl (fun u x => ufUnion u 1 x) [0, 1] = [0, 1] := by
  intro ls
  induction ls with
  | nil => intro _; rfl
  | cons x t ih =>
    intro hall
    rw [List.foldl_cons, hall x (List.mem_cons_self x t),
      show ufUnion [0, 1] 1 1 = [0, 1] from by decide]
    exact ih (fun y hy => hall y (List.mem_cons_of_mem x hy))

theorem p1step_fgInv {bin : Img}
    (hfg : ∀ i < bin.h, ∀ j < bin.w, bin.px i j ≠ 0)
    {pre post : List Pos} {c : Pos} {st : LSt}
    (hfull : rasterPos bin.h bin.w = pre ++ c :: post)
    (hinv : FgInv bin pre st) :
    FgInv bin (pre ++ [c]) (p1step bin crossSE st c) := by
  have hcb := mem_rasterPos.1 (c_mem_of_full hfull)
  have hcfg : bin.px c.1 c.2 ≠ 0 := hfg c.1 hcb.1 c.2 hcb.2
  rcases hinv with ⟨hpre, huf, hlab⟩ | ⟨hpre, huf, hlab, hunvis⟩
  · -- first voxel: it must be the origin
    have hc0 : c.1 = 0 ∧ c.2 = 0 := by
      by_contra hne
      have h00 : ((0, 0) : Pos) ∈ rasterPos bin.h bin.w :=
        mem_rasterPos.2 ⟨by omega, by omega⟩
      rw [hfull, hpre, List.nil_append] at h00
      rcases List.mem_cons.1 h00 with he | hp
      · exact hne ⟨by rw [← he], by rw [← he]⟩
      · have hs := rasterPos_sorted bin.h bin.w
        rw [hfull, hpre, List.nil_append] at hs
        have hlt := List.rel_of_pairwise_cons hs hp
        rcases hlt with h | ⟨h, h'⟩
        · exact absurd (show c.1 < 0 from h) (by omega)
        · exact absurd (show c.2 < 0 from h') (by omega)
    have hnb : (fgNbrs bin crossSE c).map st.lab = [] := by
      rw [fgNbrs_origin hc0.1 hc0.2]; rfl
    rw [p1step_fresh hcfg hnb, huf]
    refine Or.inr ⟨by simp, rfl, ?_, ?_⟩
    · intro q hq
      rw [hpre, List.nil_append] at hq
      rw [List.mem_singleton.1 hq]
      simp
    · intro q hq
      have hqc : q ≠ c := fun h => hq (by
        rw [h]; exact List.mem_append_right _ (List.mem_singleton_self c))
      show (if q = c then ([0] : List Nat).length else st.lab q) = 0
      rw [if_neg hqc]
      exact hlab q
  · -- later voxels: they have a visited foreground neighbour
    have hcne : ¬(c.1 = 0 ∧ c.2 = 0) := by
      obtain ⟨q, hq⟩ := List.exists_mem_of_ne_nil pre hpre
      have hlt := pre_rLt hfull hq
      rintro ⟨h1, h2⟩
      rcases hlt with h | ⟨h, h'⟩ <;> omega
    have hq0 : ∃ q0, q0 ∈ fgNbrs bin crossSE c := by
      by_cases hj : 1 ≤ c.2
      · refine ⟨(c.1, c.2 - 1), mem_fgNbrs_iff.2
          ⟨?_, ?_, ?_, (0, -1), by decide, ?_, ?_⟩⟩
        · exact hfg c.1 hcb.1 (c.2 - 1) (by omega)
        · exact hcb.1
        · show c.2 - 1 < bin.w; omega
        · show ((c.1 : Nat) : Int) = (c.1 : Int) + 0; omega
        · show ((c.2 - 1 : Nat) : Int) = (c.2 : Int) + (-1); omega
      · have hi : 1 ≤ c.1 := by omega
        refine ⟨(c.1 - 1, c.2), mem_fgNbrs_iff.2
          ⟨?_, ?_, ?_, (-1, 0), by decide, ?_, ?_⟩⟩
        · exact hfg (c.1 - 1) (by omega) c.2 hcb.2
        · show c.1 - 1 < bin.h; omega
        · exact hcb.2
        · show ((c.1 - 1 : Nat) : Int) = (c.1 : Int) + (-1); omega
        · show ((c.2 : Nat) : Int) = (c.2 : Int) + 0; omega
    obtain ⟨q0, hq0⟩ := hq0
    cases hmatch : (fgNbrs bin crossSE c).map st.lab with
    | nil =>
      rw [List.map_eq_nil] at hmatch
      rw [hmatch] at hq0
      exact absurd hq0 (List.not_mem_nil q0)
    | cons l ls =>
      have hall : ∀ x ∈ l :: ls, x = 1 := by
        rw [← hmatch]
        intro x hx
        obtain ⟨q, hq, rfl⟩ := List.mem_map.1 hx
        obtain ⟨hb1, hb2, hb3, hb4⟩ := mem_fgNbrs hq
        exact hlab q (mem_prefix_of_rLt hfull (mem_rasterPos.2 ⟨hb1, hb2⟩) hb4)
      have hm1 : ls.foldl min l = 1 :=
        foldl_min_all_eq ls l (hall l (List.mem_cons_self l ls))
          (fun x hx => hall x (List.mem_cons_of_mem l hx))
      rw [p1step_merge hcfg hmatch, hm1, huf, foldl_ufUnion_one _ hall]
      refine Or.inr ⟨by simp, rfl, ?_, ?_⟩
      · intro q hq
        by_cases hqc : q = c
        · subst hqc; simp
        · rcases List.mem_append.1 hq with h | h
          · show (if q = c then 1 else st.lab q) = 1
            rw [if_neg hqc]
            exact hlab q h
          · exact absurd (List.mem_singleton.1 h) hqc
      · intro q hq
        have hqc : q ≠ c := fun h => hq (by
          rw [h]; exact List.mem_append_right _ (List.mem_singleton_self c))
        show (if q = c then 1 else st.lab q) = 0
        rw [if_neg hqc]
        exact hunvis q (fun h => hq (List.mem_append_left _ h))

theorem p1_fg {bin : Img}
    (hfg : ∀ i < bin.h, ∀ j < bin.w, bin.px i j ≠ 0)
    (hh : 1 ≤ bin.h) (hw : 1 ≤ bin.w) :
    (p1 bin crossSE).uf = [0, 1] ∧
      ∀ c ∈ rasterPos bin.h bin.w, (p1 bin crossSE).lab c = 1 := by
  have hres := foldl_inv (p1step bin crossSE) (FgInv bin) (rasterPos bin.h bin.w)
    (fun pre c post st hfull hP => p1step_fgInv hfg hfull hP)
    (rasterPos bin.h bin.w) [] ⟨[0], fun _ => 0⟩ rfl
    (Or.inl ⟨rfl, rfl, fun _ => rfl⟩)
  rcases hres with ⟨hemp, -, -⟩ | ⟨-, huf, hlab, -⟩
  · exact absurd hemp
      (List.ne_nil_of_mem ((mem_rasterPos (c := (0, 0))).2 ⟨hh, hw⟩))
  · exact ⟨huf, hlab⟩

theorem dFold_all_one : ∀ (l : List Nat), (∀ x ∈ l, x = 1) →
    l.foldl dStep [1] = [1] := by
  intro l
  induction l with
  | nil => intro _; rfl
  | cons x t ih =>
    intro hall
    rw [List.foldl_cons, hall x (List.mem_cons_self x t),
      show dStep [1] 1 = [1] from by decide]
    exact ih (fun y hy => hall y (List.mem_cons_of_mem x hy))

theorem dedupNZ_all_one {l : List Nat} (hne : l ≠ []) (h1 : ∀ x ∈ l, x = 1) :
    dedupNZ l = [1] := by
  cases l with
  | nil => exact absurd rfl hne
  | cons x t =>
    rw [dedupNZ, List.foldl_cons, h1 x (List.mem_cons_self x t),
      show dStep [] 1 = [1] from by decide]
    exact dFold_all_one t (fun y hy => h1 y (List.mem_cons_of_mem x hy))

theorem label_allFg_count (a : Img)
    (hfg : ∀ i < a.h, ∀ j < a.w, a.px i j ≠ 0)
    (hh : 1 ≤ a.h) (hw : 1 ≤ a.w) :
    (label a crossSE).2 = 1 := by
  have hb : ∀ i < a.h, ∀ j < a.w, (binarize a).px i j ≠ 0 := fun i hi j hj => by
    simp [binarize, hfg i hi j hj]
  obtain ⟨huf, hlab⟩ := @p1_fg (binarize a) hb hh hw
  show rnCount (labelV (binarize a) crossSE) (rasterPos a.h a.w) = 1
  rw [rnCount_eq]
  have hvals : ∀ x ∈ (rasterPos a.h a.w).map (labelV (binarize a) crossSE),
      x = 1 := by
    intro x hx
    obtain ⟨c, hc, rfl⟩ := List.mem_map.1 hx
    rw [labelV, huf, hlab c hc]
    rfl
  have hne : (rasterPos a.h a.w).map (labelV (binarize a) crossSE) ≠ [] := by
    rw [Ne, List.map_eq_nil]
    exact List.ne_nil_of_mem ((mem_rasterPos (c := (0, 0))).2 ⟨hh, hw⟩)
  rw [dedupNZ_all_one hne hvals]
  rfl

theorem notmem_of_full {h w : Nat} {pre post : List Pos} {c : Pos}
    (hfull : rasterPos h w = pre ++ c :: post) : c ∉ pre := by
  have nd := rasterPos_nodup h w
  rw [hfull] at nd
  intro hc
  exact (List.nodup_append.1 nd).2.2 hc (List.mem_cons_self c post)

theorem p1step_diagInv {bin : Img} (hb00 : bin.px 0 0 ≠ 0)
    (hb11 : bin.px 1 1 ≠ 0)
    (hbg : ∀ i < bin.h, ∀ j < bin.w,
      ¬(i = 0 ∧ j = 0) → ¬(i = 1 ∧ j = 1) → bin.px i j = 0)
    {pre post : List Pos} {c : Pos} {st : LSt}
    (hfull : rasterPos bin.h bin.w = pre ++ c :: post)
    (hinv : DiagInv pre st) :
    DiagInv (pre ++ [c]) (p1step bin crossSE st c) := by
  obtain ⟨huf, hlab, hunvis⟩ := hinv
  have hcb := mem_rasterPos.1 (c_mem_of_full hfull)
  have hcpre : c ∉ pre := notmem_of_full hfull
  by_cases hc00 : c = (0, 0)
  · subst hc00
    have h11 : ((1, 1) : Pos) ∉ pre := by
      intro hmem
      have := pre_rLt hfull hmem
      rcases this with h | ⟨h, h'⟩ <;> omega
    rw [if_neg h11, if_neg hcpre] at huf
    have hnb : (fgNbrs bin crossSE (0, 0)).map st.lab = [] := by
      rw [fgNbrs_origin rfl rfl]; rfl
    rw [p1step_fresh (by exact hb00) hnb, huf]
    refine ⟨?_, ?_, ?_⟩
    · rw [if_neg (by
        intro hmem
        rcases List.mem_append.1 hmem with hmem | hmem
        · exact h11 hmem
        · exact absurd (List.mem_singleton.1 hmem) (by decide)),
        if_pos (List.mem_append_right _ (List.mem_singleton_self _))]
      rfl
    · intro q hq
      by_cases hqc : q = (0, 0)
      · subst hqc; simp [dlab]
      · rcases List.mem_append.1 hq with h | h
        · show (if q = (0, 0) then ([0] : List Nat).length else st.lab q) = dlab q
          rw [if_neg hqc]
          exact hlab q h
        · exact absurd (List.mem_singleton.1 h) hqc
    · intro q hq
      have hqc : q ≠ (0, 0) := fun h => hq (by
        rw [h]; exact List.mem_append_right _ (List.mem_singleton_self _))
      show (if q = (0, 0) then ([0] : List Nat).length else st.lab q) = 0
      rw [if_neg hqc]
      exact hunvis q (fun h => hq (List.mem_append_left _ h))
  · by_cases hc11 : c = (1, 1)
    · subst hc11
      have h00 : ((0, 0) : Pos) ∈ pre :=
        mem_prefix_of_rLt hfull (mem_rasterPos.2 ⟨by omega, by omega⟩)
          (Or.inl (by omega))
      rw [if_neg hcpre, if_pos h00] at huf
      have hnb : (fgNbrs bin crossSE (1, 1)).map st.lab = [] := by
        rw [show fgNbrs bin crossSE (1, 1) = [] from ?_]
        · rfl
        · rw [List.eq_nil_iff_forall_not_mem]
          intro q hq
          obtain ⟨hfg', hq1, hq2, o, ho, he1, he2⟩ := mem_fgNbrs_iff.1 hq
          obtain ⟨hoBc, hoC⟩ := mem_causal.1 ho
          simp only [crossSE, List.mem_cons, List.not_mem_nil, or_false] at hoBc
          have hqv : (q.1 = 0 ∧ q.2 = 1) ∨ (q.1 = 1 ∧ q.2 = 0) := by
            rcases hoBc with rfl | rfl | rfl | rfl <;> omega
          rcases hqv with ⟨h1, h2⟩ | ⟨h1, h2⟩
          · exact hfg' (hbg q.1 hq1 q.2 hq2 (by omega) (by omega))
          · exact hfg' (hbg q.1 hq1 q.2 hq2 (by omega) (by omega))
      rw [p1step_fresh (by exact hb11) hnb, huf]
      refine ⟨?_, ?_, ?_⟩
      · rw [if_pos (List.mem_append_right _ (List.mem_singleton_self _))]
        rfl
      · intro q hq
        by_cases hqc : q = (1, 1)
        · subst hqc; simp [dlab]
        · rcases List.mem_append.1 hq with h | h
          · show (if q = (1, 1) then ([0, 1] : List Nat).length else st.lab q) = dlab q
            rw [if_neg hqc]
            exact hlab q h
          · exact absurd (List.mem_singleton.1 h) hqc
      · intro q hq
        have hqc : q ≠ (1, 1) := fun h => hq (by
          rw [h]; exact List.mem_append_right _ (List.mem_singleton_self _))
        show (if q = (1, 1) then ([0, 1] : List Nat).length else st.lab q) = 0
        rw [if_neg hqc]
        exact hunvis q (fun h => hq (List.mem_append_left _ h))
    · have hcbg : bin.px c.1 c.2 = 0 := hbg c.1 hcb.1 c.2 hcb.2
        (fun h => hc00 (Prod.ext h.1 h.2)) (fun h => hc11 (Prod.ext h.1 h.2))
      rw [p1step_bg hcbg]
      have e11 : (((1, 1) : Pos) ∈ pre ++ [c]) ↔ ((1, 1) : Pos) ∈ pre := by
        rw [List.mem_append, List.mem_singleton]
        exact or_iff_left (fun h => hc11 h.symm)
      have e00 : (((0, 0) : Pos) ∈ pre ++ [c]) ↔ ((0, 0) : Pos) ∈ pre := by
        rw [List.mem_append, List.mem_singleton]
        exact or_iff_left (fun h => hc00 h.symm)
      refine ⟨huf.trans (if_congr e11 rfl (if_congr e00 rfl rfl)).symm, ?_, ?_⟩
      · intro q hq
        rcases List.mem_append.1 hq with h | h
        · exact hlab q h
        · rw [List.mem_singleton.1 h]
          rw [hunvis c hcpre, dlab, if_neg hc00, if_neg hc11]
      · intro q hq
        exact hunvis q (fun h => hq (List.mem_append_left _ h))

theorem p1step_diagInvF {bin : Img} (hb00 : bin.px 0 0 ≠ 0)
    (hb11 : bin.px 1 1 ≠ 0)
    (hbg : ∀ i < bin.h, ∀ j < bin.w,
      ¬(i = 0 ∧ j = 0) → ¬(i = 1 ∧ j = 1) → bin.px i j = 0)
    {pre post : List Pos} {c : Pos} {st : LSt}
    (hfull : rasterPos bin.h bin.w = pre ++ c :: post)
    (hinv : DiagInvF pre st) :
    DiagInvF (pre ++ [c]) (p1step bin fullSE st c) := by
  obtain ⟨huf, hlab, hunvis⟩ := hinv
  have hcb := mem_rasterPos.1 (c_mem_of_full hfull)
  have hcpre : c ∉ pre := notmem_of_full hfull
  by_cases hc00 : c = (0, 0)
  · subst hc00
    rw [if_neg hcpre] at huf
    have hnb : (fgNbrs bin fullSE (0, 0)).map st.lab = [] := by
      rw [fgNbrs_origin rfl rfl]; rfl
    rw [p1step_fresh (by exact hb00) hnb, huf]
    refine ⟨?_, ?_, ?_⟩
    · rw [if_pos (List.mem_append_right _ (List.mem_singleton_self _))]
      rfl
    · intro q hq
      by_cases hqc : q = (0, 0)
      · subst hqc; simp [dlabF]
      · rcases List.mem_append.1 hq with h | h
        · show (if q = (0, 0) then ([0] : List Nat).length else st.lab q) = dlabF q
          rw [if_neg hqc]
          exact hlab q h
        · exact absurd (List.mem_singleton.1 h) hqc
    · intro q hq
      have hqc : q ≠ (0, 0) := fun h => hq (by
        rw [h]; exact List.mem_append_right _ (List.mem_singleton_self _))
      show (if q = (0, 0) then ([0] : List Nat).length else st.lab q) = 0
      rw [if_neg hqc]
      exact hunvis q (fun h => hq (List.mem_append_left _ h))
  · by_cases hc11 : c = (1, 1)
    · subst hc11
      have h00 : ((0, 0) : Pos) ∈ pre :=
        mem_prefix_of_rLt hfull (mem_rasterPos.2 ⟨by omega, by omega⟩)
          (Or.inl (by omega))
      rw [if_pos h00] at huf
      have hq00 : ((0, 0) : Pos) ∈ fgNbrs bin fullSE (1, 1) :=
        mem_fgNbrs_iff.2 ⟨by exact hb00, by omega, by omega, (-1, -1),
          by decide, by omega, by omega⟩
      have hqeq : ∀ q ∈ fgNbrs bin fullSE (1, 1), q = ((0, 0) : Pos) := by
        intro q hq
        obtain ⟨hfg', hq1, hq2, o, ho, he1, he2⟩ := mem_fgNbrs_iff.1 hq
        obtain ⟨hoBc, hoC⟩ := mem_causal.1 ho
        simp only [fullSE, List.mem_cons, List.not_mem_nil, or_false] at hoBc
        have hqv : (q.1 = 0 ∧ q.2 = 0) ∨ (q.1 = 0 ∧ q.2 = 1) ∨
            (q.1 = 0 ∧ q.2 = 2) ∨ (q.1 = 1 ∧ q.2 = 0) := by
          rcases hoBc with rfl | rfl | rfl | rfl | rfl | rfl | rfl | rfl <;> omega
        rcases hqv with ⟨h1, h2⟩ | ⟨h1, h2⟩ | ⟨h1, h2⟩ | ⟨h1, h2⟩
        · exact Prod.ext h1 h2
        · exact absurd (hbg q.1 hq1 q.2 hq2 (by omega) (by omega)) hfg'
        · exact absurd (hbg q.1 hq1 q.2 hq2 (by omega) (by omega)) hfg'
        · exact absurd (hbg q.1 hq1 q.2 hq2 (by omega) (by omega)) hfg'
      cases hmatch : (fgNbrs bin fullSE (1, 1)).map st.lab with
      | nil =>
        rw [List.map_eq_nil] at hmatch
        rw [hmatch] at hq00
        exact absurd hq00 (List.not_mem_nil _)
      | cons l ls =>
        have hall : ∀ x ∈ l :: ls, x = 1 := by
          rw [← hmatch]
          intro x hx
          obtain ⟨q, hq, rfl⟩ := List.mem_map.1 hx
          rw [hqeq q hq, hlab (0, 0) h00]
          decide
        have hm1 : ls.foldl min l = 1 :=
          foldl_min_all_eq ls l (hall l (List.mem_cons_self l ls))
            (fun x hx => hall x (List.mem_cons_of_mem l hx))
        rw [p1step_merge (by exact hb11) hmatch, hm1, huf,
          foldl_ufUnion_one _ hall]
        refine ⟨?_, ?_, ?_⟩
        · rw [if_pos (List.mem_append_left _ h00)]
        · intro q hq
          by_cases hqc : q = (1, 1)
          · subst hqc; simp [dlabF]
          · rcases List.mem_append.1 hq with h | h
            · show (if q = (1, 1) then 1 else st.lab q) = dlabF q
              rw [if_neg hqc]
              exact hlab q h
            · exact absurd (List.mem_singleton.1 h) hqc
        · intro q hq
          have hqc : q ≠ (1, 1) := fun h => hq (by
            rw [h]; exact List.mem_append_right _ (List.mem_singleton_self _))
          show (if q = (1, 1) then 1 else st.lab q) = 0
          rw [if_neg hqc]
          exact hunvis q (fun h => hq (List.mem_append_left _ h))
    · have hcbg : bin.px c.1 c.2 = 0 := hbg c.1 hcb.1 c.2 hcb.2
        (fun h => hc00 (Prod.ext h.1 h.2)) (fun h => hc11 (Prod.ext h.1 h.2))
      rw [p1step_bg hcbg]
      have e00 : (((0, 0) : Pos) ∈ pre ++ [c]) ↔ ((0, 0) : Pos) ∈ pre := by
        rw [List.mem_append, List.mem_singleton]
        exact or_iff_left (fun h => hc00 h.symm)
      refine ⟨huf.trans (if_congr e00 rfl rfl).symm, ?_, ?_⟩
      · intro q hq
        rcases List.mem_append.1 hq with h | h
        · exact hlab q h
        · rw [List.mem_singleton.1 h]
          rw [hunvis c hcpre, dlabF,
            if_neg (by rintro (h | h); exacts [hc00 h, hc11 h])]
      · intro q hq
        exact hunvis q (fun h => hq (List.mem_append_left _ h))

theorem p1_diag {bin : Img} (hb00 : bin.px 0 0 ≠ 0) (hb11 : bin.px 1 1 ≠ 0)
    (hbg : ∀ i < bin.h, ∀ j < bin.w,
      ¬(i = 0 ∧ j = 0) → ¬(i = 1 ∧ j = 1) → bin.px i j = 0)
    (hh : 2 ≤ bin.h) (hw : 2 ≤ bin.w) :
    (p1 bin crossSE).uf = [0, 1, 2] ∧
      ∀ c ∈ rasterPos bin.h bin.w, (p1 bin crossSE).lab c = dlab c := by
  have hres := foldl_inv (p1step bin crossSE) DiagInv (rasterPos bin.h bin.w)
    (fun pre c post st hfull hP => p1step_diagInv hb00 hb11 hbg hfull hP)
    (rasterPos bin.h bin.w) [] ⟨[0], fun _ => 0⟩ rfl
    ⟨by simp [DiagInv], by simp, fun _ _ => rfl⟩
  obtain ⟨huf, hlab, -⟩ := hres
  refine ⟨?_, hlab⟩
  exact huf.trans (if_pos ((mem_rasterPos (c := (1, 1))).2 ⟨by omega, by omega⟩))

theorem p1_diagF {bin : Img} (hb00 : bin.px 0 0 ≠ 0) (hb11 : bin.px 1 1 ≠ 0)
    (hbg : ∀ i < bin.h, ∀ j < bin.w,
      ¬(i = 0 ∧ j = 0) → ¬(i = 1 ∧ j = 1) → bin.px i j = 0)
    (hh : 2 ≤ bin.h) (hw : 2 ≤ bin.w) :
    (p1 bin fullSE).uf = [0, 1] ∧
      ∀ c ∈ rasterPos bin.h bin.w, (p1 bin fullSE).lab c = dlabF c := by
  have hres := foldl_inv (p1step bin fullSE) DiagInvF (rasterPos bin.h bin.w)
    (fun pre c post st hfull hP => p1step_diagInvF hb00 hb11 hbg hfull hP)
    (rasterPos bin.h bin.w) [] ⟨[0], fun _ => 0⟩ rfl
    ⟨by simp [DiagInvF], by simp, fun _ _ => rfl⟩
  obtain ⟨huf, hlab, -⟩ := hres
  refine ⟨?_, hlab⟩
  exact huf.trans (if_pos ((mem_rasterPos (c := (0, 0))).2 ⟨by omega, by omega⟩))

theorem dedupNZ_single {l : List Nat} (h1 : 1 ∈ l)
    (hall : ∀ x ∈ l, x = 0 ∨ x = 1) : (dedupNZ l).length = 1 := by
  have hnd := dedupNZ_nodup l
  have hfs : (dedupNZ l).toFinset = ({1} : Finset ℕ) := by
    ext x
    rw [List.mem_toFinset, mem_dedupNZ]
    constructor
    · rintro ⟨h0, hx⟩
      rcases hall x hx with h | h
      · omega
      · simp [h]
    · intro hx
      refine ⟨by simp at hx; omega, ?_⟩
      simp only [Finset.mem_singleton] at hx
      rw [hx]; exact h1
  have hcard := List.toFinset_card_of_nodup hnd
  rw [hfs] at hcard
  simpa using hcard.symm

theorem dedupNZ_pair {l : List Nat} (h1 : 1 ∈ l) (h2 : 2 ∈ l)
    (hall : ∀ x ∈ l, x = 0 ∨ x = 1 ∨ x = 2) : (dedupNZ l).length = 2 := by
  have hnd := dedupNZ_nodup l
  have hfs : (dedupNZ l).toFinset = ({1, 2} : Finset ℕ) := by
    ext x
    rw [List.mem_toFinset, mem_dedupNZ]
    constructor
    · rintro ⟨h0, hx⟩
      rcases hall x hx with h | h | h
      · omega
      · simp [h]
      · simp [h]
    · intro hx
      simp only [Finset.mem_insert, Finset.mem_singleton] at hx
      rcases hx with rfl | rfl
      · exact ⟨by omega, h1⟩
      · exact ⟨by omega, h2⟩
  have hcard := List.toFinset_card_of_nodup hnd
  rw [hfs] at hcard
  simpa using hcard.symm

theorem label_diag_counts (a : Img) (hh : 2 ≤ a.h) (hw : 2 ≤ a.w)
    (h00 : a.px 0 0 ≠ 0) (h11 : a.px 1 1 ≠ 0)
    (hbg : ∀ i < a.h, ∀ j < a.w,
      ¬(i = 0 ∧ j = 0) → ¬(i = 1 ∧ j = 1) → a.px i j = 0) :
    (label a crossSE).2 = 2 ∧ (label a fullSE).2 = 1 := by
  have hb00 : (binarize a).px 0 0 ≠ 0 := by simp [binarize, h00]
  have hb11 : (binarize a).px 1 1 ≠ 0 := by simp [binarize, h11]
  have hbbg : ∀ i < a.h, ∀ j < a.w,
      ¬(i = 0 ∧ j = 0) → ¬(i = 1 ∧ j = 1) → (binarize a).px i j = 0 :=
    fun i hi j hj n1 n2 => by simp [binarize, hbg i hi j hj n1 n2]
  have hps00 : ((0, 0) : Pos) ∈ rasterPos a.h a.w :=
    (mem_rasterPos (c := (0, 0))).2 ⟨by omega, by omega⟩
  have hps11 : ((1, 1) : Pos) ∈ rasterPos a.h a.w :=
    (mem_rasterPos (c := (1, 1))).2 ⟨by omega, by omega⟩
  constructor
  · obtain ⟨huf, hlab⟩ := @p1_diag (binarize a) hb00 hb11 hbbg hh hw
    show rnCount (labelV (binarize a) crossSE) (rasterPos a.h a.w) = 2
    rw [rnCount_eq]
    apply dedupNZ_pair
    · refine List.mem_map.2 ⟨(0, 0), hps00, ?_⟩
      rw [labelV, huf, hlab (0, 0) hps00]
      decide
    · refine List.mem_map.2 ⟨(1, 1), hps11, ?_⟩
      rw [labelV, huf, hlab (1, 1) hps11]
      decide
    · intro x hx
      obtain ⟨c, hc, rfl⟩ := List.mem_map.1 hx
      rw [labelV, huf, hlab c hc]
      unfold dlab
      split_ifs
      · right; left; rfl
      · right; right; rfl
      · left; rfl
  · obtain ⟨huf, hlab⟩ := @p1_diagF (binarize a) hb00 hb11 hbbg hh hw
    show rnCount (labelV (binarize a) fullSE) (rasterPos a.h a.w) = 1
    rw [rnCount_eq]
    apply dedupNZ_single
    · refine List.mem_map.2 ⟨(0, 0), hps00, ?_⟩
      rw [labelV, huf, hlab (0, 0) hps00]
      decide
    · intro x hx
      obtain ⟨c, hc, rfl⟩ := List.mem_map.1 hx
      rw [labelV, huf, hlab c hc]
      unfold dlabF
      split_ifs
      · right; rfl
      · left; rfl

/-- C2: `label` returns the object count determined by the structuring
element's connectivity — an array whose only foreground voxels are (0,0)
and (1,1) has 2 objects under the cross (4-connectivity) and 1 object
under the full 3×3 element (8-connectivity) — and labeling always
succeeds on well-formed binary input: an all-background array gives count
0 (any structuring element) and an all-foreground array gives count 1. -/
theorem label_object_counts (a : Img) :
    ((∀ i < a.h, ∀ j < a.w, a.px i j = 0) → ∀ Bc, (label a Bc).2 = 0) ∧
    ((∀ i < a.h, ∀ j < a.w, a.px i j ≠ 0) → 1 ≤ a.h → 1 ≤ a.w →
      (label a crossSE).2 = 1) ∧
    (2 ≤ a.h → 2 ≤ a.w → a.px 0 0 ≠ 0 → a.px 1 1 ≠ 0 →
      (∀ i < a.h, ∀ j < a.w, ¬(i = 0 ∧ j = 0) → ¬(i = 1 ∧ j = 1) →
        a.px i j = 0) →
      (label a crossSE).2 = 2 ∧ (label a fullSE).2 = 1) := by
  refine ⟨fun h0 Bc => label_allBg_count a Bc h0,
    fun hfg hh hw => label_allFg_count a hfg hh hw,
    fun hh hw h00 h11 hbg => label_diag_counts a hh hw h00 h11 hbg⟩

theorem label_object_counts_witness :
    (label exBg2 crossSE).2 = 0 ∧ (label exFg2 crossSE).2 = 1 ∧
    (label exDiag crossSE).2 = 2 ∧ (label exDiag fullSE).2 = 1 :=
  ⟨(label_object_counts exBg2).1 (by decide) crossSE,
   (label_object_counts exFg2).2.1 (by decide) (by decide) (by decide),
   ((label_object_counts exDiag).2.2 (by decide) (by decide) (by decide)
     (by decide) (by decide)).1,
   ((label_object_counts exDiag).2.2 (by decide) (by decide) (by decide)
     (by decide) (by decide)).2⟩

theorem label_background_coincidence_witness :
    0 < exA.h ∧ 1 < exA.w ∧
    (((label exA crossSE).1.h = exA.h ∧ (label exA crossSE).1.w = exA.w) ∧
     ((label exA crossSE).1.px 0 1 = 0 ↔ exA.px 0 1 = 0) ∧
     (exBuf.h = exA.h → exBuf.w = exA.w →
       labelWithOut exA crossSE exBuf = label exA crossSE)) :=
  ⟨by decide, by decide,
   label_background_coincidence exA crossSE exBuf 0 1 (by decide) (by decide)⟩

/-! ### Canonicalizer (`relabel`) -/

/-- `dStep` commutes with an injective, zero-preserving value renaming. -/
theorem dFold_map_inj {f : Nat → Nat} (hf0 : ∀ x, f x = 0 ↔ x = 0) :
    ∀ (l : List Nat) (D : List Nat), 0 ∉ D →
      (∀ x ∈ l, ∀ y ∈ l ++ D, x ≠ 0 → y ≠ 0 → f x = f y → x = y) →
      (l.map f).foldl dStep (D.map f) = (l.foldl dStep D).map f := by
  intro l
  induction l with
  | nil => intro D _ _; rfl
  | cons x t ih =>
    intro D hD hinj
    rw [List.map_cons, List.foldl_cons, List.foldl_cons]
    have hstep : dStep (D.map f) (f x) = (dStep D x).map f := by
      by_cases hx0 : x = 0
      · rw [dStep, dStep, if_pos ((hf0 x).2 hx0), if_pos hx0]
      · have hfx0 : f x ≠ 0 := fun h => hx0 ((hf0 x).1 h)
        by_cases hxD : x ∈ D
        · rw [dStep, dStep, if_neg hfx0, if_neg hx0,
            if_pos (List.mem_map_of_mem f hxD), if_pos hxD]
        · have hfxD : f x ∉ D.map f := by
            intro hm
            obtain ⟨y, hy, hfe⟩ := List.mem_map.1 hm
            have hy0 : y ≠ 0 := fun h => hD (h ▸ hy)
            have := hinj x (List.mem_cons_self x t)
              y (List.mem_append_right _ hy) hx0 hy0 hfe.symm
            exact hxD (this ▸ hy)
          rw [dStep, dStep, if_neg hfx0, if_neg hx0, if_neg hfxD, if_neg hxD,
            List.map_append]
          rfl
    rw [hstep]
    refine ih (dStep D x) ?_ ?_
    · intro hm
      rw [mem_dStep] at hm
      rcases hm with hm | ⟨h0, -⟩
      · exact hD hm
      · exact h0 rfl
    · intro a ha y hy ha0 hy0 hfe
      refine hinj a (List.mem_cons_of_mem x ha) y ?_ ha0 hy0 hfe
      rcases List.mem_append.1 hy with hy | hy
      · exact List.mem_append_left _ (List.mem_cons_of_mem x hy)
      · rw [mem_dStep] at hy
        rcases hy with hy | ⟨-, hyx⟩
        · exact List.mem_append_right _ hy
        · subst hyx
          exact List.mem_append_left _ (List.mem_cons_self _ _)

theorem indexOf_map_inj {f : Nat → Nat} : ∀ (D : List Nat) (x : Nat), x ∈ D →
    (∀ y ∈ D, f x = f y → x = y) → (D.map f).indexOf (f x) = D.indexOf x := by
  intro D
  induction D with
  | nil => intro x hx; exact absurd hx (List.not_mem_nil x)
  | cons d D ih =>
    intro x hx hinj
    by_cases hxd : x = d
    · subst hxd
      rw [List.map_cons, List.indexOf_cons_self, List.indexOf_cons_self]
    · have hfd : f d ≠ f x :=
        fun h => hxd (hinj d (List.mem_cons_self d D) h.symm)
      rcases List.mem_cons.1 hx with rfl | hmem
      · exact absurd rfl hxd
      · rw [List.map_cons, List.indexOf_cons_ne _ hfd,
          List.indexOf_cons_ne _ (Ne.symm hxd),
          ih x hmem (fun y hy => hinj y (List.mem_cons_of_mem d hy))]

theorem indexOf_range' : ∀ (n k x : Nat), k ≤ x → x < k + n →
    (List.range' k n).indexOf x = x - k := by
  intro n
  induction n with
  | zero => intro k x h1 h2; omega
  | succ m ih =>
    intro k x h1 h2
    rw [List.range'_succ]
    by_cases hxk : x = k
    · subst hxk
      rw [List.indexOf_cons_self]
      omega
    · rw [List.indexOf_cons_ne _ (Ne.symm hxk), ih (k + 1) x (by omega) (by omega)]
      omega

theorem rnMap_zero_iff {v : Pos → Nat} {ps : List Pos} {c : Pos}
    (hc : c ∈ ps) : rnMap v ps c = 0 ↔ v c = 0 := by
  constructor
  · intro h
    by_contra h0
    exact rnMap_ne_zero hc h0 h
  · intro h
    rw [rnMap, if_pos h]

theorem rnMap_le_rnCount {v : Pos → Nat} {ps : List Pos} (c : Pos)
    (hc : c ∈ ps) : rnMap v ps c ≤ rnCount v ps := by
  by_cases h0 : v c = 0
  · rw [rnMap, if_pos h0]
    omega
  · rw [rnMap_eq_indexOf hc h0, rnCount_eq]
    have hmem : v c ∈ dedupNZ (ps.map v) :=
      mem_dedupNZ.2 ⟨h0, List.mem_map_of_mem v hc⟩
    have := List.indexOf_lt_length.2 hmem
    omega

theorem rnMap_surj {v : Pos → Nat} {ps : List Pos} {k : Nat} (h1 : 1 ≤ k)
    (h2 : k ≤ rnCount v ps) : ∃ c ∈ ps, rnMap v ps c = k := by
  rw [rnCount_eq] at h2
  have hk : k - 1 < (dedupNZ (ps.map v)).length := by omega
  obtain ⟨hne, hmem⟩ :=
    mem_dedupNZ.1 (List.get_mem (dedupNZ (ps.map v)) (k - 1) hk)
  obtain ⟨c, hc, hvc⟩ := List.mem_map.1 hmem
  refine ⟨c, hc, ?_⟩
  rw [rnMap_eq_indexOf hc (by rw [hvc]; exact hne), hvc,
    nodup_indexOf_get (dedupNZ_nodup _) (k - 1) hk]
  omega

theorem rnMap_first_order {v : Pos → Nat} {pre suf : List Pos} {c d : Pos}
    (hc : c ∈ pre ++ suf) (hd : d ∈ pre ++ suf)
    (hc0 : v c ≠ 0) (hd0 : v d ≠ 0)
    (hcpre : ∃ e ∈ pre, v e = v c) (hdpre : ∀ e ∈ pre, v e ≠ v d) :
    rnMap v (pre ++ suf) c < rnMap v (pre ++ suf) d := by
  rw [rnMap_eq_indexOf hc hc0, rnMap_eq_indexOf hd hd0]
  obtain ⟨t, ht⟩ := dFold_extend (suf.map v) (dedupNZ (pre.map v))
  have hD : dedupNZ ((pre ++ suf).map v) = dedupNZ (pre.map v) ++ t := by
    rw [List.map_append, dedupNZ, List.foldl_append]
    exact ht
  obtain ⟨e, he, hev⟩ := hcpre
  have hcD : v c ∈ dedupNZ (pre.map v) :=
    mem_dedupNZ.2 ⟨hc0, by rw [← hev]; exact List.mem_map_of_mem v he⟩
  have hdD : v d ∉ dedupNZ (pre.map v) := by
    intro hm
    obtain ⟨h0, hmem⟩ := mem_dedupNZ.1 hm
    obtain ⟨e', he', hve'⟩ := List.mem_map.1 hmem
    exact hdpre e' he' hve'
  rw [hD, indexOf_append_left t hcD, indexOf_append_right t hdD]
  have := List.indexOf_lt_length.2 hcD
  omega

/-- C3: `relabel` compacts the label set to exactly `{0, …, K'}` — every
output value is between 0 and the returned count `K'`, every id `1..K'`
is attained — preserves background exactly, renumbers surviving labels in
their order of first appearance in scan order (`1,3,3,7 ↦ 1,2,2,3`), and
the copying variant leaves the input buffer unchanged while the in-place
variant overwrites it with (and returns) the result. -/
theorem relabel_canonical (L : Img) (hnn : Nonneg L) :
    (∀ i < L.h, ∀ j < L.w, 0 ≤ (relabelCore L).1.px i j ∧
      (relabelCore L).1.px i j ≤ ((relabelCore L).2 : Int)) ∧
    (∀ k : Nat, 1 ≤ k → k ≤ (relabelCore L).2 →
      ∃ i j, i < L.h ∧ j < L.w ∧ (relabelCore L).1.px i j = (k : Int)) ∧
    (∀ i < L.h, ∀ j < L.w, ((relabelCore L).1.px i j = 0 ↔ L.px i j = 0)) ∧
    (∀ pre suf, rasterPos L.h L.w = pre ++ suf →
      ∀ c d : Pos, c ∈ rasterPos L.h L.w → d ∈ rasterPos L.h L.w →
      L.px c.1 c.2 ≠ 0 → L.px d.1 d.2 ≠ 0 →
      (∃ e ∈ pre, L.px e.1 e.2 = L.px c.1 c.2) →
      (∀ e ∈ pre, L.px e.1 e.2 ≠ L.px d.1 d.2) →
      (relabelCore L).1.px c.1 c.2 < (relabelCore L).1.px d.1 d.2) ∧
    ((relabel L false).2 = L ∧ (relabel L true).2 = (relabel L true).1.1) ∧
    ((relabelCore exGap).1.px 0 0 = 1 ∧ (relabelCore exGap).1.px 0 1 = 2 ∧
     (relabelCore exGap).1.px 0 2 = 2 ∧ (relabelCore exGap).1.px 0 3 = 3 ∧
     (relabelCore exGap).2 = 3) := by
  have hnn' : ∀ c : Pos, c ∈ rasterPos L.h L.w → 0 ≤ L.px c.1 c.2 := by
    intro c hc
    obtain ⟨h1, h2⟩ := mem_rasterPos.1 hc
    exact hnn c.1 h1 c.2 h2
  refine ⟨?_, ?_, ?_, ?_, ⟨rfl, rfl⟩, by decide⟩
  · intro i hi j hj
    have hc := (mem_rasterPos (c := (i, j))).2 ⟨hi, hj⟩
    constructor
    · exact Int.natCast_nonneg _
    · exact Int.ofNat_le.2 (rnMap_le_rnCount (i, j) hc)
  · intro k h1 h2
    obtain ⟨c, hc, hk⟩ := rnMap_surj (v := vOf L) h1 h2
    obtain ⟨hci, hcj⟩ := mem_rasterPos.1 hc
    refine ⟨c.1, c.2, hci, hcj, ?_⟩
    show ((rnMap (vOf L) (rasterPos L.h L.w) c : Nat) : Int) = (k : Int)
    rw [hk]
  · intro i hi j hj
    have hc := (mem_rasterPos (c := (i, j))).2 ⟨hi, hj⟩
    show ((rnMap (vOf L) (rasterPos L.h L.w) (i, j) : Nat) : Int) = 0 ↔ _
    rw [Int.natCast_eq_zero, rnMap_zero_iff hc]
    show (L.px i j).toNat = 0 ↔ L.px i j = 0
    have := hnn i hi j hj
    omega
  · intro pre suf hsplit c d hc hd hc0 hd0 hcpre hdpre
    have hc0' : vOf L c ≠ 0 := by
      have := hnn' c hc
      unfold vOf
      omega
    have hd0' : vOf L d ≠ 0 := by
      have := hnn' d hd
      unfold vOf
      omega
    have hcpre' : ∃ e ∈ pre, vOf L e = vOf L c := by
      obtain ⟨e, he, hev⟩ := hcpre
      exact ⟨e, he, by unfold vOf; rw [hev]⟩
    have hdpre' : ∀ e ∈ pre, vOf L e ≠ vOf L d := by
      intro e he heq
      have hemem : e ∈ rasterPos L.h L.w := by
        rw [hsplit]; exact List.mem_append_left _ he
      have h1 := hnn' e hemem
      have h2 := hnn' d hd
      refine hdpre e he ?_
      unfold vOf at heq
      omega
    show ((rnMap (vOf L) (rasterPos L.h L.w) c : Nat) : Int) <
      ((rnMap (vOf L) (rasterPos L.h L.w) d : Nat) : Int)
    rw [hsplit] at hc hd ⊢
    exact Int.ofNat_lt.2 (rnMap_first_order hc hd hc0' hd0' hcpre' hdpre')

theorem relabel_canonical_witness :
    Nonneg exGap ∧
    ((∀ i < exGap.h, ∀ j < exGap.w, 0 ≤ (relabelCore exGap).1.px i j ∧
      (relabelCore exGap).1.px i j ≤ ((relabelCore exGap).2 : Int)) ∧
    (∀ k : Nat, 1 ≤ k → k ≤ (relabelCore exGap).2 →
      ∃ i j, i < exGap.h ∧ j < exGap.w ∧ (relabelCore exGap).1.px i j = (k : Int)) ∧
    (∀ i < exGap.h, ∀ j < exGap.w,
      ((relabelCore exGap).1.px i j = 0 ↔ exGap.px i j = 0)) ∧
    (∀ pre suf, rasterPos exGap.h exGap.w = pre ++ suf →
      ∀ c d : Pos, c ∈ rasterPos exGap.h exGap.w →
      d ∈ rasterPos exGap.h exGap.w →
      exGap.px c.1 c.2 ≠ 0 → exGap.px d.1 d.2 ≠ 0 →
      (∃ e ∈ pre, exGap.px e.1 e.2 = exGap.px c.1 c.2) →
      (∀ e ∈ pre, exGap.px e.1 e.2 ≠ exGap.px d.1 d.2) →
      (relabelCore exGap).1.px c.1 c.2 < (relabelCore exGap).1.px d.1 d.2) ∧
    ((relabel exGap false).2 = exGap ∧
     (relabel exGap true).2 = (relabel exGap true).1.1) ∧
    ((relabelCore exGap).1.px 0 0 = 1 ∧ (relabelCore exGap).1.px 0 1 = 2 ∧
     (relabelCore exGap).1.px 0 2 = 2 ∧ (relabelCore exGap).1.px 0 3 = 3 ∧
     (relabelCore exGap).2 = 3)) :=
  ⟨by unfold Nonneg; decide, relabel_canonical exGap (by unfold Nonneg; decide)⟩

theorem rnMap_eq_renumVal {v : Pos → Nat} {ps : List Pos} {c : Pos}
    (hc : c ∈ ps) : rnMap v ps c = renumVal (ps.map v) (v c) := by
  by_cases h0 : v c = 0
  · rw [rnMap, if_pos h0, renumVal, if_pos h0]
  · rw [rnMap_eq_indexOf hc h0, renumVal, if_neg h0]

theorem renumVal_zero_iff (l : List Nat) (x : Nat) :
    renumVal l x = 0 ↔ x = 0 := by
  unfold renumVal
  split_ifs with h
  · simp [h]
  · constructor
    · intro hh; exact absurd hh (by simp)
    · intro hh; exact absurd hh h

theorem renumVal_inj {l : List Nat} {x y : Nat}
    (hx : x ∈ dedupNZ l) (hy : y ∈ dedupNZ l)
    (he : renumVal l x = renumVal l y) : x = y := by
  have hx0 : x ≠ 0 := (mem_dedupNZ.1 hx).1
  have hy0 : y ≠ 0 := (mem_dedupNZ.1 hy).1
  rw [renumVal, if_neg hx0, renumVal, if_neg hy0] at he
  exact (List.indexOf_inj hx hy).1 (by omega)

/-- Renumbering an already-renumbered value stream changes nothing: the
renaming of a dense, first-appearance-ordered stream is the identity on
the map and the count. -/
theorem rnMap_idem {v : Pos → Nat} {ps : List Pos} :
    (∀ c ∈ ps, rnMap (rnMap v ps) ps c = rnMap v ps c) ∧
    rnCount (rnMap v ps) ps = rnCount v ps := by
  have hmapeq : ps.map (rnMap v ps) = (ps.map v).map (renumVal (ps.map v)) := by
    rw [List.map_map]
    exact List.map_congr_left (fun c hc => rnMap_eq_renumVal hc)
  have hmemD : ∀ x ∈ ps.map v, x ≠ 0 → x ∈ dedupNZ (ps.map v) :=
    fun x hx h0 => mem_dedupNZ.2 ⟨h0, hx⟩
  have hdd : dedupNZ ((ps.map v).map (renumVal (ps.map v))) =
      (dedupNZ (ps.map v)).map (renumVal (ps.map v)) := by
    have := dFold_map_inj (f := renumVal (ps.map v))
      (renumVal_zero_iff (ps.map v)) (ps.map v) []
      (List.not_mem_nil 0)
      (fun x hx y hy hx0 hy0 he =>
        renumVal_inj (hmemD x hx hx0)
          (hmemD y (by simpa using hy) hy0) he)
    simpa [dedupNZ] using this
  constructor
  · intro c hc
    by_cases h0 : v c = 0
    · have h0' : rnMap v ps c = 0 := (rnMap_zero_iff hc).2 h0
      rw [(rnMap_zero_iff hc).2 h0', h0']
    · have h0' : rnMap v ps c ≠ 0 := rnMap_ne_zero hc h0
      have hvD : v c ∈ dedupNZ (ps.map v) :=
        mem_dedupNZ.2 ⟨h0, List.mem_map_of_mem v hc⟩
      have hrv : renumVal (ps.map v) (v c) =
          (dedupNZ (ps.map v)).indexOf (v c) + 1 := by
        rw [renumVal, if_neg h0]
      rw [rnMap_eq_indexOf hc h0', hmapeq, hdd, rnMap_eq_renumVal hc,
        indexOf_map_inj (dedupNZ (ps.map v)) (v c) hvD
          (fun y hy he => renumVal_inj hvD hy he), hrv]
  · rw [rnCount_eq, rnCount_eq, hmapeq, hdd, List.length_map]

/-- C8: relabel is idempotent — `relabel (relabel L) == relabel L`
elementwise, with the same shape and object count — and on a label map
whose nonzero values, in order of first appearance during the raster
scan, are exactly `1, 2, …, K` (a dense map in canonical order), the
renumbering is the identity and the count is `K`. -/
theorem relabel_idempotent (L : Img) (hnn : Nonneg L) :
    ((relabelCore (relabelCore L).1).1.h = (relabelCore L).1.h ∧
     (relabelCore (relabelCore L).1).1.w = (relabelCore L).1.w ∧
     (∀ i < L.h, ∀ j < L.w,
       (relabelCore (relabelCore L).1).1.px i j = (relabelCore L).1.px i j) ∧
     (relabelCore (relabelCore L).1).2 = (relabelCore L).2) ∧
    (∀ K : Nat, dedupNZ ((rasterPos L.h L.w).map (vOf L)) = List.range' 1 K →
      (∀ i < L.h, ∀ j < L.w, (relabelCore L).1.px i j = L.px i j) ∧
      (relabelCore L).2 = K) := by
  have hvv : vOf (relabelCore L).1 = fun c => rnMap (vOf L) (rasterPos L.h L.w) c :=
    rfl
  constructor
  · refine ⟨rfl, rfl, ?_, ?_⟩
    · intro i hi j hj
      have hc := (mem_rasterPos (c := (i, j))).2 ⟨hi, hj⟩
      show ((rnMap (vOf (relabelCore L).1) (rasterPos L.h L.w) (i, j) : Nat) : Int) =
        ((rnMap (vOf L) (rasterPos L.h L.w) (i, j) : Nat) : Int)
      rw [hvv, (@rnMap_idem (vOf L) (rasterPos L.h L.w)).1 (i, j) hc]
    · show rnCount (vOf (relabelCore L).1) (rasterPos L.h L.w) =
        rnCount (vOf L) (rasterPos L.h L.w)
      rw [hvv]
      exact (@rnMap_idem (vOf L) (rasterPos L.h L.w)).2
  · intro K hK
    have hcount : (relabelCore L).2 = K := by
      show rnCount (vOf L) (rasterPos L.h L.w) = K
      rw [rnCount_eq, hK, List.length_range']
    refine ⟨?_, hcount⟩
    intro i hi j hj
    have hc := (mem_rasterPos (c := (i, j))).2 ⟨hi, hj⟩
    have hnn0 : 0 ≤ L.px i j := hnn i hi j hj
    by_cases h0 : vOf L (i, j) = 0
    · show ((rnMap (vOf L) (rasterPos L.h L.w) (i, j) : Nat) : Int) = L.px i j
      rw [(rnMap_zero_iff hc).2 h0]
      have : (L.px i j).toNat = 0 := h0
      omega
    · show ((rnMap (vOf L) (rasterPos L.h L.w) (i, j) : Nat) : Int) = L.px i j
      have hvD : vOf L (i, j) ∈ dedupNZ ((rasterPos L.h L.w).map (vOf L)) :=
        mem_dedupNZ.2 ⟨h0, List.mem_map_of_mem (vOf L) hc⟩
      rw [hK] at hvD
      obtain ⟨m, hm, hvm⟩ := List.mem_range'.1 hvD
      rw [rnMap_eq_indexOf hc h0, hK,
        indexOf_range' K 1 (vOf L (i, j)) (by omega) (by omega)]
      have : (L.px i j).toNat = vOf L (i, j) := rfl
      omega

theorem relabel_idempotent_witness :
    Nonneg exGap ∧
    (((relabelCore (relabelCore exGap).1).1.h = (relabelCore exGap).1.h ∧
     (relabelCore (relabelCore exGap).1).1.w = (relabelCore exGap).1.w ∧
     (∀ i < exGap.h, ∀ j < exGap.w,
       (relabelCore (relabelCore exGap).1).1.px i j =
         (relabelCore exGap).1.px i j) ∧
     (relabelCore (relabelCore exGap).1).2 = (relabelCore exGap).2) ∧
    (∀ K : Nat,
      dedupNZ ((rasterPos exGap.h exGap.w).map (vOf exGap)) = List.range' 1 K →
      (∀ i < exGap.h, ∀ j < exGap.w,
        (relabelCore exGap).1.px i j = exGap.px i j) ∧
      (relabelCore exGap).2 = K)) :=
  ⟨by unfold Nonneg; decide, relabel_idempotent exGap (by unfold Nonneg; decide)⟩

/-! ### Labeling Comparator (`is_same_labeling`) -/

theorem mem_of_lookup_eq_some {m : List (Int × Int)} {k v : Int}
    (h : m.lookup k = some v) : (k, v) ∈ m := by
  obtain ⟨l₁, l₂, hm, -⟩ := List.lookup_eq_some_iff.1 h
  rw [hm]
  exact List.mem_append_right _ (List.mem_cons_self _ _)

theorem not_mem_keys_of_lookup_eq_none {m : List (Int × Int)} {k : Int}
    (h : m.lookup k = none) : ∀ p ∈ m, k ≠ p.1 := by
  intro p hp
  have := List.lookup_eq_none_iff.1 h p hp
  simpa using this

theorem nodup_snd_inj {m : List (Int × Int)}
    (h : (m.map Prod.snd).Nodup) :
    ∀ {x₁ x₂ y : Int}, (x₁, y) ∈ m → (x₂, y) ∈ m → x₁ = x₂ := by
  induction m with
  | nil => intro x₁ x₂ y h1 _; exact absurd h1 (List.not_mem_nil _)
  | cons p m ih =>
    intro x₁ x₂ y h1 h2
    rw [List.map_cons, List.nodup_cons] at h
    rcases List.mem_cons.1 h1 with he1 | h1
    · rcases List.mem_cons.1 h2 with he2 | h2
      · exact congrArg Prod.fst (he1.trans he2.symm)
      · have hy : y ∈ m.map Prod.snd := List.mem_map.2 ⟨(x₂, y), h2, rfl⟩
        have hp2 : p.2 = y := by rw [← he1]
        exact absurd hy (by rw [← hp2]; exact h.1)
    · rcases List.mem_cons.1 h2 with he2 | h2
      · have hy : y ∈ m.map Prod.snd := List.mem_map.2 ⟨(x₁, y), h1, rfl⟩
        have hp2 : p.2 = y := by rw [← he2]
        exact absurd hy (by rw [← hp2]; exact h.1)
      · exact ih h.2 h1 h2

theorem slStep_inv {a b : Img} {pre post : List Pos} {c : Pos}
    {st : Option (List (Int × Int))}
    (hfull : rasterPos a.h a.w = pre ++ c :: post)
    (hinv : SLInv a b pre st) :
    SLInv a b (pre ++ [c]) (slStep a b st c) := by
  cases st with
  | none => intro m hm; exact absurd hm (by simp [slStep])
  | some m0 =>
    obtain ⟨hM1, hM3, hM4, hM5⟩ := hinv m0 rfl
    intro m hm
    rw [slStep] at hm
    by_cases ha0 : a.px c.1 c.2 = 0
    · rw [if_pos ha0] at hm
      by_cases hb0 : b.px c.1 c.2 = 0
      · rw [if_pos hb0] at hm
        injection hm with hm
        subst hm
        refine ⟨hM1, hM3, ?_, ?_⟩
        · intro p hp
          obtain ⟨e, he, hee⟩ := hM4 p hp
          exact ⟨e, List.mem_append_left _ he, hee⟩
        · intro q hq
          rcases List.mem_append.1 hq with hq | hq
          · exact hM5 q hq
          · rw [List.mem_singleton.1 hq]
            exact ⟨by rw [ha0, hb0], fun hn => absurd ha0 hn⟩
      · rw [if_neg hb0] at hm
        exact absurd hm (by simp)
    · rw [if_neg ha0] at hm
      by_cases hb0 : b.px c.1 c.2 = 0
      · rw [if_pos hb0] at hm
        exact absurd hm (by simp)
      · rw [if_neg hb0] at hm
        cases hlk : m0.lookup (a.px c.1 c.2) with
        | some y =>
          rw [hlk] at hm
          replace hm : (if y = b.px c.1 c.2 then some m0 else none) = some m := hm
          by_cases hy : y = b.px c.1 c.2
          · rw [if_pos hy] at hm
            injection hm with hm
            subst hm
            refine ⟨hM1, hM3, ?_, ?_⟩
            · intro p hp
              obtain ⟨e, he, hee⟩ := hM4 p hp
              exact ⟨e, List.mem_append_left _ he, hee⟩
            · intro q hq
              rcases List.mem_append.1 hq with hq | hq
              · exact hM5 q hq
              · rw [List.mem_singleton.1 hq]
                refine ⟨⟨fun h => absurd h ha0, fun h => absurd h hb0⟩, ?_⟩
                intro _
                rw [hlk, hy]
          · rw [if_neg hy] at hm
            exact absurd hm (by simp)
        | none =>
          rw [hlk] at hm
          replace hm : (if b.px c.1 c.2 ∈ m0.map Prod.snd then none
              else some (m0 ++ [(a.px c.1 c.2, b.px c.1 c.2)])) = some m := hm
          by_cases hbm : b.px c.1 c.2 ∈ m0.map Prod.snd
          · rw [if_pos hbm] at hm
            exact absurd hm (by simp)
          · rw [if_neg hbm] at hm
            injection hm with hm
            subst hm
            refine ⟨?_, ?_, ?_, ?_⟩
            · intro p hp
              rcases List.mem_append.1 hp with hp | hp
              · exact hM1 p hp
              · rw [List.mem_singleton.1 hp]
                exact ⟨ha0, hb0⟩
            · rw [List.map_append]
              rw [List.nodup_append]
              refine ⟨hM3, List.nodup_singleton _, ?_⟩
              intro y hy
              simp only [List.map_cons, List.map_nil, List.mem_singleton]
              intro hy'
              rw [hy'] at hy
              exact hbm hy
            · intro p hp
              rcases List.mem_append.1 hp with hp | hp
              · obtain ⟨e, he, hee⟩ := hM4 p hp
                exact ⟨e, List.mem_append_left _ he, hee⟩
              · rw [List.mem_singleton.1 hp]
                exact ⟨c, List.mem_append_right _ (List.mem_singleton_self c),
                  rfl, rfl⟩
            · intro q hq
              rcases List.mem_append.1 hq with hq | hq
              · obtain ⟨hiff, hlkq⟩ := hM5 q hq
                refine ⟨hiff, fun hq0 => ?_⟩
                rw [List.lookup_append, hlkq hq0]
                rfl
              · rw [List.mem_singleton.1 hq]
                refine ⟨⟨fun h => absurd h ha0, fun h => absurd h hb0⟩, ?_⟩
                intro _
                rw [List.lookup_append, hlk]
                simp [List.lookup]

theorem slStep_invB {a b : Img} {f : Int → Int}
    (hbij : Set.BijOn f (fgLabels a) (fgLabels b))
    (hbg : ∀ i < a.h, ∀ j < a.w, (a.px i j = 0 ↔ b.px i j = 0))
    (hpt : ∀ i < a.h, ∀ j < a.w, a.px i j ≠ 0 → f (a.px i j) = b.px i j)
    {pre post : List Pos} {c : Pos} {st : Option (List (Int × Int))}
    (hfull : rasterPos a.h a.w = pre ++ c :: post)
    (hinv : SLInvB a b f pre st) :
    SLInvB a b f (pre ++ [c]) (slStep a b st c) := by
  obtain ⟨m, rfl, hgraph⟩ := hinv
  obtain ⟨hci, hcj⟩ := mem_rasterPos.1 (c_mem_of_full hfull)
  show SLInvB a b f (pre ++ [c])
    (if a.px c.1 c.2 = 0 then (if b.px c.1 c.2 = 0 then some m else none)
     else if b.px c.1 c.2 = 0 then none
     else
       match m.lookup (a.px c.1 c.2) with
       | some y => if y = b.px c.1 c.2 then some m else none
       | none =>
         if b.px c.1 c.2 ∈ m.map Prod.snd then none
         else some (m ++ [(a.px c.1 c.2, b.px c.1 c.2)]))
  by_cases ha0 : a.px c.1 c.2 = 0
  · rw [if_pos ha0, if_pos ((hbg c.1 hci c.2 hcj).1 ha0)]
    exact ⟨m, rfl, hgraph⟩
  · have hb0 : b.px c.1 c.2 ≠ 0 := fun h => ha0 ((hbg c.1 hci c.2 hcj).2 h)
    rw [if_neg ha0, if_neg hb0]
    have hafg : a.px c.1 c.2 ∈ fgLabels a :=
      ⟨ha0, c.1, c.2, hci, hcj, rfl⟩
    have hfc : f (a.px c.1 c.2) = b.px c.1 c.2 := hpt c.1 hci c.2 hcj ha0
    cases hlk : m.lookup (a.px c.1 c.2) with
    | some y =>
      show SLInvB a b f (pre ++ [c])
        (if y = b.px c.1 c.2 then some m else none)
      have hymem := mem_of_lookup_eq_some hlk
      have hy : y = b.px c.1 c.2 := by
        have := (hgraph _ hymem).2
        rw [← hfc]
        exact this.symm
      rw [if_pos hy]
      exact ⟨m, rfl, hgraph⟩
    | none =>
      show SLInvB a b f (pre ++ [c])
        (if b.px c.1 c.2 ∈ m.map Prod.snd then none
         else some (m ++ [(a.px c.1 c.2, b.px c.1 c.2)]))
      have hnk := not_mem_keys_of_lookup_eq_none hlk
      rw [if_neg ?_]
      · exact ⟨m ++ [(a.px c.1 c.2, b.px c.1 c.2)], rfl, by
          intro p hp
          rcases List.mem_append.1 hp with hp | hp
          · exact hgraph p hp
          · rw [List.mem_singleton.1 hp]
            exact ⟨hafg, hfc⟩⟩
      · intro hmem
        obtain ⟨p, hp, hps⟩ := List.mem_map.1 hmem
        obtain ⟨hpfg, hpf⟩ := hgraph p hp
        have hff : f p.1 = f (a.px c.1 c.2) := by rw [hpf, hps, hfc]
        have := hbij.injOn hpfg hafg hff
        exact hnk p hp this.symm

/-- C4: for two label maps of identical shape, `is_same_labeling` returns
true iff the background masks coincide exactly and a bijection between
the attained nonzero label sets carries the first map to the second
pointwise (same partition of the foreground); any position where one map
is background and the other is not forces the result false. -/
theorem is_same_labeling_iff (a b : Img) (hh : b.h = a.h) (hw : b.w = a.w) :
    (is_same_labeling a b = true ↔ SameLabelingSpec a b) ∧
    ((∃ i, i < a.h ∧ ∃ j, j < a.w ∧ ¬(a.px i j = 0 ↔ b.px i j = 0)) →
      is_same_labeling a b = false) := by
  have main : is_same_labeling a b = true ↔ SameLabelingSpec a b := by
    constructor
    · intro htrue
      have hinv := foldl_inv (slStep a b) (SLInv a b) (rasterPos a.h a.w)
        (fun pre c post st hfull hP => slStep_inv hfull hP)
        (rasterPos a.h a.w) [] (some []) rfl
        (fun m hm => by
          injection hm with hm
          subst hm
          exact ⟨by simp, by simp, by simp, by simp⟩)
      rw [is_same_labeling] at htrue
      obtain ⟨m, hm⟩ := Option.isSome_iff_exists.1 htrue
      obtain ⟨hM1, hM3, hM4, hM5⟩ := hinv m hm
      refine ⟨fun i hi j hj => (hM5 (i, j) (mem_rasterPos.2 ⟨hi, hj⟩)).1,
        fun v => (m.lookup v).getD 0, ⟨?_, ?_, ?_⟩, ?_⟩
      · rintro v ⟨hv0, i, j, hi, hj, hvij⟩
        subst hvij
        have hmem := (mem_rasterPos (c := (i, j))).2 ⟨hi, hj⟩
        have hlkup := (hM5 (i, j) hmem).2 hv0
        have hb0 : b.px i j ≠ 0 :=
          fun h0 => hv0 ((hM5 (i, j) hmem).1.2 h0)
        refine ⟨?_, i, j, by omega, by omega, ?_⟩
        · show (List.lookup (a.px i j) m).getD 0 ≠ 0
          rw [hlkup]
          exact hb0
        · show b.px i j = (List.lookup (a.px i j) m).getD 0
          rw [hlkup]
          rfl
      · rintro u ⟨hu0, iu, ju, hiu, hju, huij⟩ v ⟨hv0, iv, jv, hiv, hjv, hvij⟩ hfe
        subst huij
        subst hvij
        have hl1 := (hM5 (iu, ju) (mem_rasterPos.2 ⟨hiu, hju⟩)).2 hu0
        have hl2 := (hM5 (iv, jv) (mem_rasterPos.2 ⟨hiv, hjv⟩)).2 hv0
        have hfe' : b.px iu ju = b.px iv jv := by
          have h1 : (List.lookup (a.px iu ju) m).getD 0 = b.px iu ju := by
            rw [hl1]; rfl
          have h2 : (List.lookup (a.px iv jv) m).getD 0 = b.px iv jv := by
            rw [hl2]; rfl
          rw [← h1, ← h2]
          exact hfe
        exact nodup_snd_inj hM3 (mem_of_lookup_eq_some hl1)
          (by rw [hfe']; exact mem_of_lookup_eq_some hl2)
      · rintro w ⟨hw0, i, j, hi', hj', hwij⟩
        have hi : i < a.h := by omega
        have hj : j < a.w := by omega
        have hmem := (mem_rasterPos (c := (i, j))).2 ⟨hi, hj⟩
        have ha0 : a.px i j ≠ 0 := by
          intro h0
          rw [← hwij] at hw0
          exact hw0 ((hM5 (i, j) hmem).1.1 h0)
        refine ⟨a.px i j, ⟨ha0, i, j, hi, hj, rfl⟩, ?_⟩
        show (List.lookup (a.px i j) m).getD 0 = w
        rw [(hM5 (i, j) hmem).2 ha0, ← hwij]
        rfl
      · intro i hi j hj ha0
        show (List.lookup (a.px i j) m).getD 0 = b.px i j
        rw [(hM5 (i, j) (mem_rasterPos.2 ⟨hi, hj⟩)).2 ha0]
        rfl
    · intro hspec
      obtain ⟨hbg, f, hbij, hpt⟩ := hspec
      have hinv := foldl_inv (slStep a b) (SLInvB a b f) (rasterPos a.h a.w)
        (fun pre c post st hfull hP => slStep_invB hbij hbg hpt hfull hP)
        (rasterPos a.h a.w) [] (some []) rfl ⟨[], rfl, by simp⟩
      obtain ⟨m, hm, -⟩ := hinv
      rw [is_same_labeling, hm]
      rfl
  refine ⟨main, ?_⟩
  rintro ⟨i, hi, j, hj, hne⟩
  cases hsl : is_same_labeling a b with
  | false => rfl
  | true => exact absurd ((main.1 hsl).1 i hi j hj) hne

theorem is_same_labeling_iff_witness :
    exSLb.h = exSLa.h ∧ exSLb.w = exSLa.w ∧
    ((is_same_labeling exSLa exSLb = true ↔ SameLabelingSpec exSLa exSLb) ∧
     ((∃ i, i < exSLa.h ∧ ∃ j, j < exSLa.w ∧
        ¬(exSLa.px i j = 0 ↔ exSLb.px i j = 0)) →
       is_same_labeling exSLa exSLb = false)) :=
  ⟨by decide, by decide, is_same_labeling_iff exSLa exSLb rfl rfl⟩

/-! ### Region Editor (`remove_bordering`, lines 186-232 of `labeled.py`)

This function is pure Python in `src/`, embedded directly (2-D
instantiation of its dimension loop). -/

theorem foldl_mask (x : Int) : ∀ (l : List Int) (acc : Int),
    l.foldl (fun acc v => acc * (if x = v then 0 else 1)) acc =
    if x ∈ l then 0 else acc := by
  intro l
  induction l with
  | nil => intro acc; simp
  | cons v t ih =>
    intro acc
    rw [List.foldl_cons, ih]
    by_cases hxv : x = v
    · rw [if_pos (List.mem_cons.2 (Or.inl hxv)), if_pos hxv]
      split_ifs
      · rfl
      · exact mul_zero acc
    · rw [if_neg hxv, mul_one]
      have e : (x ∈ t) ↔ (x ∈ v :: t) := by
        constructor
        · exact List.mem_cons_of_mem v
        · intro h
          rcases List.mem_cons.1 h with h' | h'
          · exact absurd h' hxv
          · exact h'
      rw [if_congr e rfl rfl]

theorem mem_dedupInt {l : List Int} {x : Int} : x ∈ dedupInt l ↔ x ∈ l := by
  suffices key : ∀ (l acc : List Int),
      (x ∈ l.foldl (fun acc x => if x ∈ acc then acc else acc ++ [x]) acc ↔
        x ∈ acc ∨ x ∈ l) by
    rw [dedupInt, key l []]
    simp
  intro l
  induction l with
  | nil => intro acc; simp
  | cons v t ih =>
    intro acc
    rw [List.foldl_cons, ih]
    by_cases hv : v ∈ acc
    · rw [if_pos hv]
      constructor
      · rintro (h | h)
        · exact Or.inl h
        · exact Or.inr (List.mem_cons_of_mem v h)
      · rintro (h | h)
        · exact Or.inl h
        · rcases List.mem_cons.1 h with rfl | h
          · exact Or.inl hv
          · exact Or.inr h
    · rw [if_neg hv]
      constructor
      · rintro (h | h)
        · rcases List.mem_append.1 h with h | h
          · exact Or.inl h
          · exact Or.inr (List.mem_cons.2 (Or.inl (List.mem_singleton.1 h)))
        · exact Or.inr (List.mem_cons_of_mem v h)
      · rintro (h | h)
        · exact Or.inl (List.mem_append_left _ h)
        · rcases List.mem_cons.1 h with rfl | h
          · exact Or.inl (List.mem_append_right _ (List.mem_singleton_self _))
          · exact Or.inr h

theorem mem_lowHigh {n rsize i : Nat} :
    i ∈ lowHigh n rsize ↔ i < n ∧ (i < rsize ∨ highStart n rsize ≤ i) := by
  rw [lowHigh, List.mem_filter]
  simp

theorem mem_slabPositions {h w rsize : Nat} {c : Pos} :
    c ∈ slabPositions h w rsize ↔
      c.1 < h ∧ c.2 < w ∧
      (c.1 < rsize ∨ highStart h rsize ≤ c.1 ∨
       c.2 < rsize ∨ highStart w rsize ≤ c.2) := by
  obtain ⟨i, j⟩ := c
  rw [slabPositions, List.mem_append]
  constructor
  · rintro (hm | hm)
    · obtain ⟨i', hi', hm2⟩ := List.mem_flatMap.1 hm
      obtain ⟨j', hj', he⟩ := List.mem_map.1 hm2
      obtain ⟨rfl, rfl⟩ : i' = i ∧ j' = j :=
        ⟨congrArg Prod.fst he, congrArg Prod.snd he⟩
      obtain ⟨h1, h2⟩ := mem_lowHigh.1 hi'
      exact ⟨h1, List.mem_range.1 hj', by tauto⟩
    · obtain ⟨i', hi', hm2⟩ := List.mem_flatMap.1 hm
      obtain ⟨j', hj', he⟩ := List.mem_map.1 hm2
      obtain ⟨rfl, rfl⟩ : i' = i ∧ j' = j :=
        ⟨congrArg Prod.fst he, congrArg Prod.snd he⟩
      obtain ⟨h1, h2⟩ := mem_lowHigh.1 hj'
      exact ⟨List.mem_range.1 hi', h1, by tauto⟩
  · rintro ⟨h1, h2, h3 | h3 | h3 | h3⟩
    · exact Or.inl (by
        simp only [List.mem_flatMap, List.mem_map, List.mem_range]
        exact ⟨i, mem_lowHigh.2 ⟨h1, Or.inl h3⟩, j, h2, rfl⟩)
    · exact Or.inl (by
        simp only [List.mem_flatMap, List.mem_map, List.mem_range]
        exact ⟨i, mem_lowHigh.2 ⟨h1, Or.inr h3⟩, j, h2, rfl⟩)
    · exact Or.inr (by
        simp only [List.mem_flatMap, List.mem_map, List.mem_range]
        exact ⟨i, h1, j, mem_lowHigh.2 ⟨h2, Or.inl h3⟩, rfl⟩)
    · exact Or.inr (by
        simp only [List.mem_flatMap, List.mem_map, List.mem_range]
        exact ⟨i, h1, j, mem_lowHigh.2 ⟨h2, Or.inr h3⟩, rfl⟩)

theorem mem_invalidList {L : Img} {rsize : Nat} {v : Int} :
    v ∈ invalidList L rsize ↔
      v ≠ 0 ∧ ∃ c : Pos, c ∈ slabPositions L.h L.w rsize ∧
        L.px c.1 c.2 = v := by
  rw [invalidList, mem_dedupInt, List.mem_filter]
  constructor
  · rintro ⟨hm, hv⟩
    obtain ⟨c, hc, he⟩ := List.mem_map.1 hm
    exact ⟨by simpa using hv, c, hc, he⟩
  · rintro ⟨hv, c, hc, he⟩
    exact ⟨List.mem_map.2 ⟨c, hc, he⟩, by simpa using hv⟩

/-- C5 counterexample: the claim quantifies over every `rsize`, but at
`rsize = 0` Python's `slice(-0, None)` selects the whole axis, so the
single interior pixel of a 1×1 map is zeroed although no position lies
within distance 0 of a border. -/
theorem remove_bordering_claim_counterexample :
    (removeBordering (imgOfLL [[5]]) 0).px 0 0 = 0 ∧
    (imgOfLL [[5]]).px 0 0 = 5 ∧
    ¬ BorderInvalid (imgOfLL [[5]]) 0 ((imgOfLL [[5]]).px 0 0) :=
  ⟨by decide, by decide, by decide⟩

/-- C5 (amended: `rsize ≥ 1`): `remove_bordering` zeroes exactly the
positions whose label value appears within distance `rsize` of the low
or high end of either axis (the whole region is removed), leaves every
other position — and its exact label value, so nothing is renumbered —
unchanged, and leaves the 5×5 single-central-pixel map unchanged at
`rsize = 1`. -/
theorem remove_bordering_amended (L : Img) (rsize : Nat) (hr : 1 ≤ rsize) :
    ((removeBordering L rsize).h = L.h ∧ (removeBordering L rsize).w = L.w) ∧
    (∀ i < L.h, ∀ j < L.w,
      (removeBordering L rsize).px i j =
        if BorderInvalid L rsize (L.px i j) then 0 else L.px i j) ∧
    (∀ i < 5, ∀ j < 5, (removeBordering ex5 1).px i j = ex5.px i j) := by
  refine ⟨⟨rfl, rfl⟩, ?_, by decide⟩
  intro i hi j hj
  show (invalidList L rsize).foldl
      (fun acc v => acc * (if L.px i j = v then 0 else 1)) (L.px i j) =
    if BorderInvalid L rsize (L.px i j) then 0 else L.px i j
  rw [foldl_mask]
  have e : (L.px i j ∈ invalidList L rsize) ↔
      BorderInvalid L rsize (L.px i j) := by
    rw [mem_invalidList]
    constructor
    · rintro ⟨h0, c, hc, he⟩
      obtain ⟨h1, h2, h3⟩ := mem_slabPositions.1 hc
      refine ⟨h0, c.1, h1, c.2, h2, he, ?_⟩
      have hrz : ¬ rsize = 0 := by omega
      simp only [highStart, if_neg hrz] at h3
      omega
    · rintro ⟨h0, a, ha, b, hb, he, hcond⟩
      refine ⟨h0, (a, b), mem_slabPositions.2 ⟨ha, hb, ?_⟩, he⟩
      have hrz : ¬ rsize = 0 := by omega
      simp only [highStart, if_neg hrz]
      omega
  rw [if_congr e rfl rfl]

theorem remove_bordering_amended_witness :
    1 ≤ 1 ∧
    (((removeBordering ex5 1).h = ex5.h ∧ (removeBordering ex5 1).w = ex5.w) ∧
     (∀ i < ex5.h, ∀ j < ex5.w,
       (removeBordering ex5 1).px i j =
         if BorderInvalid ex5 1 (ex5.px i j) then 0 else ex5.px i j) ∧
     (∀ i < 5, ∀ j < 5, (removeBordering ex5 1).px i j = ex5.px i j)) :=
  ⟨by decide, remove_bordering_amended ex5 1 (by decide)⟩

/-- C9: calling `remove_bordering` with the deprecated `output=` keyword
(and no `out=`) does not warn-and-continue: line 224 references the
undefined name `fname`, so the call raises `NameError` and produces no
result, while the `out=` spelling succeeds. -/
theorem remove_bordering_output_kw_raises :
    remove_bordering_call (imgOfLL [[1]]) 1 none (some (imgOfLL [[0]])) =
      Except.error "NameError: name fname is not defined" ∧
    (∀ r : Img, remove_bordering_call (imgOfLL [[1]]) 1 none
      (some (imgOfLL [[0]])) ≠ Except.ok r) ∧
    remove_bordering_call (imgOfLL [[1]]) 1 (some (imgOfLL [[0]])) none =
      Except.ok (removeBordering (imgOfLL [[1]]) 1) := by
  refine ⟨rfl, ?_, rfl⟩
  intro r h
  exact Except.noConfusion h

/-! ### Region Aggregator (`labeled_size`, `labeled_sum`) -/

theorem rasterPos_length : ∀ h w : Nat, (rasterPos h w).length = h * w := by
  intro h
  induction h with
  | zero => intro w; rw [Nat.zero_mul]; rfl
  | succ n ih =>
    intro w
    show ((List.range (n + 1)).flatMap
      (fun i => (List.range w).map (fun j => (i, j)))).length = _
    rw [List.range_succ, List.flatMap_append,
      List.length_append,
      show ((List.range n).flatMap
        (fun i => (List.range w).map (fun j => ((i, j) : Pos)))).length = n * w
        from ih w]
    simp [Nat.succ_mul]

theorem foldl_max_init_le : ∀ (l : List Nat) (acc : Nat),
    acc ≤ l.foldl max acc := by
  intro l
  induction l with
  | nil => intro acc; exact Nat.le_refl acc
  | cons y t ih =>
    intro acc
    rw [List.foldl_cons]
    exact le_trans (Nat.le_max_left acc y) (ih (max acc y))

theorem mem_le_foldl_max : ∀ (l : List Nat) (acc x : Nat), x ∈ l →
    x ≤ l.foldl max acc := by
  intro l
  induction l with
  | nil => intro acc x hx; exact absurd hx (List.not_mem_nil x)
  | cons y t ih =>
    intro acc x hx
    rw [List.foldl_cons]
    rcases List.mem_cons.1 hx with rfl | hx
    · exact le_trans (Nat.le_max_right acc x) (foldl_max_init_le t _)
    · exact ih (max acc y) x hx

theorem vOf_le_maxL {L : Img} {c : Pos} (hc : c ∈ rasterPos L.h L.w) :
    vOf L c ≤ maxL L :=
  mem_le_foldl_max _ 0 _ (List.mem_map_of_mem (vOf L) hc)

theorem sum_map_add {α : Type} : ∀ (l : List α) (f g : α → Nat),
    (l.map (fun x => f x + g x)).sum = (l.map f).sum + (l.map g).sum := by
  intro l
  induction l with
  | nil => intro f g; rfl
  | cons x t ih =>
    intro f g
    simp only [List.map_cons, List.sum_cons, ih]
    omega

theorem sum_ind_notmem : ∀ (n x : Nat), n ≤ x →
    ((List.range n).map (fun v => if x = v then 1 else 0)).sum = 0 := by
  intro n
  induction n with
  | zero => intro x _; rfl
  | succ m ih =>
    intro x hx
    rw [List.range_succ, List.map_append, List.sum_append,
      ih x (by omega)]
    simp only [List.map_cons, List.map_nil, List.sum_cons, List.sum_nil]
    rw [if_neg (by omega)]
    omega

theorem sum_ind_mem : ∀ (n x : Nat), x < n →
    ((List.range n).map (fun v => if x = v then 1 else 0)).sum = 1 := by
  intro n
  induction n with
  | zero => intro x hx; omega
  | succ m ih =>
    intro x hx
    rw [List.range_succ, List.map_append, List.sum_append]
    by_cases hxm : x = m
    · rw [sum_ind_notmem m x (by omega)]
      simp [hxm]
    · rw [ih x (by omega)]
      simp [hxm]

theorem sum_counts {α : Type} (f : α → Nat) :
    ∀ (l : List α) (n : Nat), (∀ x ∈ l, f x < n) →
      ((List.range n).map
        (fun v => (l.filter (fun x => decide (f x = v))).length)).sum =
      l.length := by
  intro l
  induction l with
  | nil =>
    intro n _
    have : ∀ v ∈ List.range n,
        (([] : List α).filter (fun x => decide (f x = v))).length = 0 :=
      fun v _ => rfl
    rw [List.map_congr_left this]
    simp
  | cons c t ih =>
    intro n hall
    have hstep : ∀ v ∈ List.range n,
        ((c :: t).filter (fun x => decide (f x = v))).length =
        (if f c = v then 1 else 0) +
          (t.filter (fun x => decide (f x = v))).length := by
      intro v _
      rw [List.filter_cons]
      by_cases h : f c = v
      · rw [if_pos (by simp [h]), if_pos h, List.length_cons]
        omega
      · simp [h]
    rw [List.map_congr_left hstep, sum_map_add,
      sum_ind_mem n (f c) (hall c (List.mem_cons_self c t)),
      ih n (fun x hx => hall x (List.mem_cons_of_mem c hx))]
    rw [List.length_cons]
    omega

theorem getD_replicate_zero {n k : Nat} (hk : k < n) :
    (List.replicate n (0 : Int)).getD k 0 = 0 := by
  rw [List.getD_eq_getElem?_getD, List.getElem?_replicate]
  simp [hk]

theorem labeled_sum_fold_inv (V L : Img) :
    ∀ (l : List Pos) (acc : List Int), (∀ c ∈ l, vOf L c < acc.length) →
      ((l.foldl (fun acc c =>
          acc.set (vOf L c) (acc.getD (vOf L c) 0 + V.px c.1 c.2)) acc).length =
        acc.length) ∧
      (∀ k, k < acc.length →
        (l.foldl (fun acc c =>
          acc.set (vOf L c) (acc.getD (vOf L c) 0 + V.px c.1 c.2)) acc).getD k 0 =
        acc.getD k 0 +
          ((l.filter (fun c => decide (vOf L c = k))).map
            (fun c => V.px c.1 c.2)).sum) := by
  intro l
  induction l with
  | nil =>
    intro acc _
    refine ⟨rfl, fun k _ => ?_⟩
    simp
  | cons c t ih =>
    intro acc hall
    rw [List.foldl_cons]
    have hcl : vOf L c < acc.length := hall c (List.mem_cons_self c t)
    have hlen : (acc.set (vOf L c) (acc.getD (vOf L c) 0 + V.px c.1 c.2)).length =
        acc.length := List.length_set acc _ _
    obtain ⟨ih1, ih2⟩ := ih (acc.set (vOf L c) (acc.getD (vOf L c) 0 + V.px c.1 c.2))
      (fun q hq => by rw [hlen]; exact hall q (List.mem_cons_of_mem c hq))
    refine ⟨ih1.trans hlen, fun k hk => ?_⟩
    rw [ih2 k (by rw [hlen]; exact hk), List.filter_cons]
    by_cases hck : vOf L c = k
    · rw [if_pos (by simpa using hck)]
      rw [List.map_cons, List.sum_cons]
      subst hck
      rw [getD_set_self hcl]
      omega
    · rw [if_neg (by simpa using hck), getD_set_ne hck]

/-- C6: for every label map `L`, the entries of `labeled_size L` sum to the
total element count `L.h * L.w`; and for every same-shaped array `V`,
`labeled_sum V L` is a 1-D list of length `max(L) + 1` whose entry `k` —
including the background entry `k = 0`, populated like any other label —
equals the sum of `V` over the positions where `L` equals `k`. -/
theorem labeled_aggregators (V L : Img) (hL : Nonneg L) :
    (labeled_size L).sum = L.h * L.w ∧
    (labeled_size L).length = maxL L + 1 ∧
    (labeled_sum V L).length = maxL L + 1 ∧
    (∀ k, k ≤ maxL L →
      (labeled_sum V L).getD k 0 =
        (((rasterPos L.h L.w).filter
            (fun c => decide (L.px c.1 c.2 = (k : Int)))).map
          (fun c => V.px c.1 c.2)).sum) := by
  have hall : ∀ c ∈ rasterPos L.h L.w,
      vOf L c < (List.replicate (maxL L + 1) (0 : Int)).length := by
    intro c hc
    rw [List.length_replicate]
    exact Nat.lt_succ_of_le (vOf_le_maxL hc)
  obtain ⟨h3, h4⟩ := labeled_sum_fold_inv V L (rasterPos L.h L.w)
    (List.replicate (maxL L + 1) 0) hall
  refine ⟨?_, ?_, ?_, ?_⟩
  · rw [labeled_size, sum_counts (vOf L) (rasterPos L.h L.w) (maxL L + 1)
      (fun c hc => Nat.lt_succ_of_le (vOf_le_maxL hc)), rasterPos_length]
  · simp [labeled_size]
  · rw [labeled_sum]
    rw [h3, List.length_replicate]
  · intro k hk
    have hk' : k < (List.replicate (maxL L + 1) (0 : Int)).length := by
      rw [List.length_replicate]; omega
    have hfc : (rasterPos L.h L.w).filter (fun c => decide (vOf L c = k)) =
        (rasterPos L.h L.w).filter
          (fun c => decide (L.px c.1 c.2 = (k : Int))) := by
      refine List.filter_congr ?_
      intro c hc
      have hb := mem_rasterPos.1 hc
      have h0 := hL c.1 hb.1 c.2 hb.2
      simp only [decide_eq_decide, vOf]
      omega
    rw [labeled_sum, h4 k hk',
      getD_replicate_zero (show k < maxL L + 1 by omega), hfc]
    omega

theorem labeled_aggregators_witness :
    Nonneg exSLa ∧ (labeled_size exSLa).sum = exSLa.h * exSLa.w :=
  ⟨by unfold Nonneg; decide,
    (labeled_aggregators exSLa exSLa (by unfold Nonneg; decide)).1⟩

/-- A 0/1 indicator is nonzero exactly when its condition holds. -/
theorem ind_ne_zero {P : Prop} [Decidable P] :
    ((if P then (1 : Int) else 0) ≠ 0) ↔ P := by
  by_cases h : P <;> simp [h]

/-- Two 0/1 indicators differ exactly when their conditions disagree. -/
theorem ind_ne_ind {P Q : Prop} [Decidable P] [Decidable Q] :
    ((if P then (1 : Int) else 0) ≠ if Q then 1 else 0) ↔ ¬(P ↔ Q) := by
  by_cases hP : P <;> by_cases hQ : Q <;> simp [hP, hQ]

/-- `Int.toNat` of a 0/1 indicator. -/
theorem toNat_ind {P : Prop} [Decidable P] :
    (if P then (1 : Int) else 0).toNat = if P then 1 else 0 := by
  by_cases h : P
  · rw [if_pos h, if_pos h]
    rfl
  · rw [if_neg h, if_neg h]
    rfl

/-- Binarizing the 0/1 square image changes nothing. -/
theorem binarize_squareImg (H W r c k i j : Nat) :
    (binarize (squareImg H W r c k)).px i j = (squareImg H W r c k).px i j := by
  show (if (squareImg H W r c k).px i j = 0 then (0 : Int) else 1) = _
  by_cases h : r ≤ i ∧ i < r + k ∧ c ≤ j ∧ j < c + k
  · rw [show (squareImg H W r c k).px i j = 1 from if_pos h]
    norm_num
  · rw [show (squareImg H W r c k).px i j = 0 from if_neg h]
    norm_num

/-- Constant-mode reads of the square image, over signed indices. -/
theorem pxC_squareImg (H W r c k : Nat) (a b : Int) :
    pxC (squareImg H W r c k) a b =
      if (r : Int) ≤ a ∧ a < (r : Int) + k ∧ (c : Int) ≤ b ∧ b < (c : Int) + k ∧
          a < (H : Int) ∧ b < (W : Int) then 1 else 0 := by
  show (if 0 ≤ a ∧ a < (H : Int) ∧ 0 ≤ b ∧ b < (W : Int)
      then (squareImg H W r c k).px a.toNat b.toNat else 0) = _
  by_cases hb : 0 ≤ a ∧ a < (H : Int) ∧ 0 ≤ b ∧ b < (W : Int)
  · rw [if_pos hb]
    show (if r ≤ a.toNat ∧ a.toNat < r + k ∧ c ≤ b.toNat ∧ b.toNat < c + k
        then (1 : Int) else 0) = _
    by_cases hs : (r : Int) ≤ a ∧ a < (r : Int) + k ∧ (c : Int) ≤ b ∧
        b < (c : Int) + k ∧ a < (H : Int) ∧ b < (W : Int)
    · have hsq : r ≤ a.toNat ∧ a.toNat < r + k ∧ c ≤ b.toNat ∧ b.toNat < c + k := by
        omega
      rw [if_pos hsq, if_pos hs]
    · have hsq : ¬ (r ≤ a.toNat ∧ a.toNat < r + k ∧ c ≤ b.toNat ∧ b.toNat < c + k) := by
        omega
      rw [if_neg hsq, if_neg hs]
  · rw [if_neg hb]
    have hns : ¬ ((r : Int) ≤ a ∧ a < (r : Int) + k ∧ (c : Int) ≤ b ∧
        b < (c : Int) + k ∧ a < (H : Int) ∧ b < (W : Int)) := by omega
    rw [if_neg hns]

/-- Constant-mode reads ignore binarization on the square image. -/
theorem pxC_bin_squareImg (H W r c k : Nat) (x y : Int) :
    pxC (binarize (squareImg H W r c k)) x y = pxC (squareImg H W r c k) x y := by
  show (if 0 ≤ x ∧ x < (H : Int) ∧ 0 ≤ y ∧ y < (W : Int)
      then (binarize (squareImg H W r c k)).px x.toNat y.toNat else 0) =
    (if 0 ≤ x ∧ x < (H : Int) ∧ 0 ≤ y ∧ y < (W : Int)
      then (squareImg H W r c k).px x.toNat y.toNat else 0)
  by_cases hb : 0 ≤ x ∧ x < (H : Int) ∧ 0 ≤ y ∧ y < (W : Int)
  · rw [if_pos hb, if_pos hb, binarize_squareImg]
  · rw [if_neg hb, if_neg hb]

/-- `bwperim` of the square image is exactly the boundary-ring mask. -/
theorem bwperim_squareImg (H W r c k : Nat) (hH : r + k ≤ H) (hW : c + k ≤ W)
    (a b : Nat) :
    (bwperim (squareImg H W r c k) 4).px a b = true ↔ OnRing r c k a b := by
  have hx : (bwperim (squareImg H W r c k) 4).px a b =
      (decide ((squareImg H W r c k).px a b ≠ 0) &&
        (crossSE.any (fun o =>
          decide (pxC (binarize (squareImg H W r c k)) ((a : Int) + o.1)
              ((b : Int) + o.2) ≠ (binarize (squareImg H W r c k)).px a b)))) :=
    rfl
  rw [hx, crossSE]
  simp only [List.any_cons, List.any_nil, Bool.or_false, Bool.and_eq_true,
    Bool.or_eq_true, decide_eq_true_eq]
  simp only [pxC_bin_squareImg, pxC_squareImg, binarize_squareImg]
  rw [show (squareImg H W r c k).px a b =
    if r ≤ a ∧ a < r + k ∧ c ≤ b ∧ b < c + k then 1 else 0 from rfl]
  simp only [ind_ne_zero, ind_ne_ind]
  simp only [OnRing]
  omega

/-- The 0/1 perimeter mask of the square image is the ring indicator. -/
theorem perimMask_squareImg (H W r c k : Nat) (hH : r + k ≤ H) (hW : c + k ≤ W)
    (a b : Nat) :
    (perimMask (squareImg H W r c k) 4).px a b =
      if OnRing r c k a b then 1 else 0 := by
  show (if (bwperim (squareImg H W r c k) 4).px a b then (1 : Int) else 0) = _
  by_cases h : OnRing r c k a b
  · rw [if_pos ((bwperim_squareImg H W r c k hH hW a b).2 h), if_pos h]
  · rw [if_neg (fun hx => h ((bwperim_squareImg H W r c k hH hW a b).1 hx)),
      if_neg h]

/-- Reflection is the identity on in-range indices. -/
theorem reflN_add_zero (n i : Nat) (h : i < n) : reflN n ((i : Int) + 0) = i := by
  have h1 : ¬ ((i : Int) + 0) < 0 := by omega
  have h2 : ((i : Int) + 0) < (n : Int) := by omega
  rw [reflN, if_neg h1, if_pos h2]
  omega

theorem reflN_add_one (n i : Nat) (h : i + 1 < n) :
    reflN n ((i : Int) + 1) = i + 1 := by
  have h1 : ¬ ((i : Int) + 1) < 0 := by omega
  have h2 : ((i : Int) + 1) < (n : Int) := by omega
  rw [reflN, if_neg h1, if_pos h2]
  omega

theorem reflN_sub_one (n i : Nat) (h1 : 1 ≤ i) (h2 : i ≤ n) :
    reflN n ((i : Int) + -1) = i - 1 := by
  have hn1 : ¬ ((i : Int) + -1) < 0 := by omega
  have hn2 : ((i : Int) + -1) < (n : Int) := by omega
  rw [reflN, if_neg hn1, if_pos hn2]
  omega

/-- The convolution response written out over the nine kernel offsets. -/
theorem convAt_expand (P : Img) (i j : Nat) :
    convAt P i j =
      0 + 10 * (P.px (reflN P.h ((i : Int) + -1)) (reflN P.w ((j : Int) + -1))).toNat
        + 2 * (P.px (reflN P.h ((i : Int) + -1)) (reflN P.w ((j : Int) + 0))).toNat
        + 10 * (P.px (reflN P.h ((i : Int) + -1)) (reflN P.w ((j : Int) + 1))).toNat
        + 2 * (P.px (reflN P.h ((i : Int) + 0)) (reflN P.w ((j : Int) + -1))).toNat
        + 1 * (P.px (reflN P.h ((i : Int) + 0)) (reflN P.w ((j : Int) + 0))).toNat
        + 2 * (P.px (reflN P.h ((i : Int) + 0)) (reflN P.w ((j : Int) + 1))).toNat
        + 10 * (P.px (reflN P.h ((i : Int) + 1)) (reflN P.w ((j : Int) + -1))).toNat
        + 2 * (P.px (reflN P.h ((i : Int) + 1)) (reflN P.w ((j : Int) + 0))).toNat
        + 10 * (P.px (reflN P.h ((i : Int) + 1)) (reflN P.w ((j : Int) + 1))).toNat :=
  rfl

/-- Table entries at indices outside the key set are zero. -/
theorem perimValue_not_key (v : Nat) (h5 : v ≠ 5) (h7 : v ≠ 7) (h13 : v ≠ 13)
    (h15 : v ≠ 15) (h17 : v ≠ 17) (h21 : v ≠ 21) (h23 : v ≠ 23) (h25 : v ≠ 25)
    (h27 : v ≠ 27) (h33 : v ≠ 33) : perimValue v = (0, 0) := by
  rw [perimValue, perimTable, lookup_cons_ne h5, lookup_cons_ne h7,
    lookup_cons_ne h15, lookup_cons_ne h17, lookup_cons_ne h25,
    lookup_cons_ne h27, lookup_cons_ne h21, lookup_cons_ne h33,
    lookup_cons_ne h13, lookup_cons_ne h23, List.lookup_nil]
  rfl

/-- Every nonzero table entry sits at an odd index. -/
theorem perimValue_even {v : Nat} (h : v % 2 = 0) : perimValue v = (0, 0) :=
  perimValue_not_key v (by omega) (by omega) (by omega) (by omega) (by omega)
    (by omega) (by omega) (by omega) (by omega) (by omega)

/-- Every table entry at index 34 or above is zero (histogram truncation
to 34 bins discards only zero-valued contributions). -/
theorem perimValue_ge34 {v : Nat} (h : 34 ≤ v) : perimValue v = (0, 0) :=
  perimValue_not_key v (by omega) (by omega) (by omega) (by omega) (by omega)
    (by omega) (by omega) (by omega) (by omega) (by omega)

/-- Off the ring the convolution response is even (the centre weight is 1
and all neighbour weights are even), so its table entry is zero — the
convolve edge mode is irrelevant to the final value. -/
theorem convAt_notring (H W r c k : Nat) (hH : r + k ≤ H) (hW : c + k ≤ W)
    (i j : Nat) (hi : i < H) (hj : j < W) (hnr : ¬ OnRing r c k i j) :
    perimValue (convAt (perimMask (squareImg H W r c k) 4) i j) = (0, 0) := by
  apply perimValue_even
  have e1 : reflN (perimMask (squareImg H W r c k) 4).h ((i : Int) + 0) = i :=
    reflN_add_zero _ i hi
  have e2 : reflN (perimMask (squareImg H W r c k) 4).w ((j : Int) + 0) = j :=
    reflN_add_zero _ j hj
  rw [convAt_expand, e1, e2, perimMask_squareImg H W r c k hH hW i j, if_neg hnr]
  omega

/-- A ring pixel has exactly two 4-neighbours on the ring. -/
theorem ringCrossCount (r c k i j : Nat) (hk : 2 ≤ k) (hr : 1 ≤ r)
    (hc : 1 ≤ c) (hb : r ≤ i ∧ i < r + k ∧ c ≤ j ∧ j < c + k ∧
      (i = r ∨ i + 1 = r + k ∨ j = c ∨ j + 1 = c + k)) :
    (if OnRing r c k (i - 1) j then 1 else 0) +
      (if OnRing r c k i (j - 1) then 1 else 0) +
      (if OnRing r c k i (j + 1) then 1 else 0) +
      (if OnRing r c k (i + 1) j then 1 else 0) = 2 := by
  split_ifs <;> simp only [OnRing] at * <;> omega

/-- A ring pixel has at most two diagonal neighbours on the ring. -/
theorem ringDiagCount (r c k i j : Nat) (hk : 2 ≤ k) (hr : 1 ≤ r)
    (hc : 1 ≤ c) (hb : r ≤ i ∧ i < r + k ∧ c ≤ j ∧ j < c + k ∧
      (i = r ∨ i + 1 = r + k ∨ j = c ∨ j + 1 = c + k)) :
    (if OnRing r c k (i - 1) (j - 1) then 1 else 0) +
      (if OnRing r c k (i - 1) (j + 1) then 1 else 0) +
      (if OnRing r c k (i + 1) (j - 1) then 1 else 0) +
      (if OnRing r c k (i + 1) (j + 1) then 1 else 0) ≤ 2 := by
  split_ifs <;> simp only [OnRing] at * <;> omega

/-- On the ring (for `k ≥ 2`, one-pixel margins) the convolution response
is one of the codes 5, 15, 25, all of which carry table weight 1: a ring
pixel has exactly two 4-neighbours and at most two diagonal neighbours on
the ring. -/
theorem convAt_ring (H W r c k : Nat) (hk : 2 ≤ k) (hr : 1 ≤ r) (hc : 1 ≤ c)
    (hH : r + k < H) (hW : c + k < W) (i j : Nat) (hq : OnRing r c k i j) :
    perimValue (convAt (perimMask (squareImg H W r c k) 4) i j) = (1, 0) := by
  have hb : r ≤ i ∧ i < r + k ∧ c ≤ j ∧ j < c + k ∧
      (i = r ∨ i + 1 = r + k ∨ j = c ∨ j + 1 = c + k) := hq
  have erm : reflN (perimMask (squareImg H W r c k) 4).h ((i : Int) + -1) = i - 1 :=
    reflN_sub_one _ i (show 1 ≤ i by omega) (show i ≤ H by omega)
  have er0 : reflN (perimMask (squareImg H W r c k) 4).h ((i : Int) + 0) = i :=
    reflN_add_zero _ i (show i < H by omega)
  have erp : reflN (perimMask (squareImg H W r c k) 4).h ((i : Int) + 1) = i + 1 :=
    reflN_add_one _ i (show i + 1 < H by omega)
  have ecm : reflN (perimMask (squareImg H W r c k) 4).w ((j : Int) + -1) = j - 1 :=
    reflN_sub_one _ j (show 1 ≤ j by omega) (show j ≤ W by omega)
  have ec0 : reflN (perimMask (squareImg H W r c k) 4).w ((j : Int) + 0) = j :=
    reflN_add_zero _ j (show j < W by omega)
  have ecp : reflN (perimMask (squareImg H W r c k) 4).w ((j : Int) + 1) = j + 1 :=
    reflN_add_one _ j (show j + 1 < W by omega)
  rw [convAt_expand, erm, er0, erp, ecm, ec0, ecp]
  simp only [perimMask_squareImg H W r c k (show r + k ≤ H by omega)
    (show c + k ≤ W by omega), toNat_ind]
  rw [if_pos hq]
  have hs : (if OnRing r c k (i - 1) j then 1 else 0) +
      (if OnRing r c k i (j - 1) then 1 else 0) +
      (if OnRing r c k i (j + 1) then 1 else 0) +
      (if OnRing r c k (i + 1) j then 1 else 0) = 2 :=
    ringCrossCount r c k i j hk hr hc hb
  have ht : (if OnRing r c k (i - 1) (j - 1) then 1 else 0) +
      (if OnRing r c k (i - 1) (j + 1) then 1 else 0) +
      (if OnRing r c k (i + 1) (j - 1) then 1 else 0) +
      (if OnRing r c k (i + 1) (j + 1) then 1 else 0) ≤ 2 :=
    ringDiagCount r c k i j hk hr hc hb
  have h5 : 0 + 10 * (if OnRing r c k (i - 1) (j - 1) then 1 else 0)
        + 2 * (if OnRing r c k (i - 1) j then 1 else 0)
        + 10 * (if OnRing r c k (i - 1) (j + 1) then 1 else 0)
        + 2 * (if OnRing r c k i (j - 1) then 1 else 0)
        + 1 * 1
        + 2 * (if OnRing r c k i (j + 1) then 1 else 0)
        + 10 * (if OnRing r c k (i + 1) (j - 1) then 1 else 0)
        + 2 * (if OnRing r c k (i + 1) j then 1 else 0)
        + 10 * (if OnRing r c k (i + 1) (j + 1) then 1 else 0) = 5 ∨
      0 + 10 * (if OnRing r c k (i - 1) (j - 1) then 1 else 0)
        + 2 * (if OnRing r c k (i - 1) j then 1 else 0)
        + 10 * (if OnRing r c k (i - 1) (j + 1) then 1 else 0)
        + 2 * (if OnRing r c k i (j - 1) then 1 else 0)
        + 1 * 1
        + 2 * (if OnRing r c k i (j + 1) then 1 else 0)
        + 10 * (if OnRing r c k (i + 1) (j - 1) then 1 else 0)
        + 2 * (if OnRing r c k (i + 1) j then 1 else 0)
        + 10 * (if OnRing r c k (i + 1) (j + 1) then 1 else 0) = 15 ∨
      0 + 10 * (if OnRing r c k (i - 1) (j - 1) then 1 else 0)
        + 2 * (if OnRing r c k (i - 1) j then 1 else 0)
        + 10 * (if OnRing r c k (i - 1) (j + 1) then 1 else 0)
        + 2 * (if OnRing r c k i (j - 1) then 1 else 0)
        + 1 * 1
        + 2 * (if OnRing r c k i (j + 1) then 1 else 0)
        + 10 * (if OnRing r c k (i + 1) (j - 1) then 1 else 0)
        + 2 * (if OnRing r c k (i + 1) j then 1 else 0)
        + 10 * (if OnRing r c k (i + 1) (j + 1) then 1 else 0) = 25 := by
    omega
  rcases h5 with h | h | h <;> rw [h] <;> decide

theorem sum_map_zero_q {α : Type} : ∀ l : List α,
    (l.map (fun _ => (0 : ℚ))).sum = 0 := by
  intro l
  induction l with
  | nil => rfl
  | cons x t ih => rw [List.map_cons, List.sum_cons, ih, add_zero]

theorem sum_map_add_q {α : Type} : ∀ (l : List α) (f g : α → ℚ),
    (l.map (fun x => f x + g x)).sum = (l.map f).sum + (l.map g).sum := by
  intro l
  induction l with
  | nil => intro f g; simp
  | cons x t ih =>
    intro f g
    simp only [List.map_cons, List.sum_cons, ih]
    ring

/-- Summing an indicator-weighted function over an initial range picks out
the single matching term. -/
theorem sum_ind_val_q (g : Nat → ℚ) : ∀ (n x : Nat), x < n →
    ((List.range n).map (fun v => (if x = v then (1 : ℚ) else 0) * g v)).sum =
      g x := by
  intro n
  induction n with
  | zero => intro x hx; omega
  | succ m ih =>
    intro x hx
    rw [List.range_succ, List.map_append, List.sum_append]
    by_cases hxm : x = m
    · subst hxm
      have hcg : ∀ v ∈ List.range x,
          (if x = v then (1 : ℚ) else 0) * g v = (fun _ => (0 : ℚ)) v := by
        intro v hv
        rw [if_neg (by simp at hv; omega), zero_mul]
      rw [List.map_congr_left hcg, sum_map_zero_q, zero_add]
      simp
    · rw [ih x (by omega)]
      simp [hxm]

/-- The truncated histogram dot product as a sum over array positions. -/
theorem dot_hist_q {α : Type} (f : α → Nat) (g : Nat → ℚ) :
    ∀ (l : List α) (n : Nat), (∀ x ∈ l, f x < n) →
      ((List.range n).map
        (fun v => ((l.filter (fun x => decide (f x = v))).length : ℚ) * g v)).sum =
      (l.map (fun x => g (f x))).sum := by
  intro l
  induction l with
  | nil =>
    intro n _
    have hz : ∀ v ∈ List.range n,
        ((([] : List α).filter (fun x => decide (f x = v))).length : ℚ) * g v =
          (fun _ => (0 : ℚ)) v := by
      intro v _
      simp
    rw [List.map_congr_left hz, sum_map_zero_q]
    rfl
  | cons q t ih =>
    intro n hall
    have hstep : ∀ v ∈ List.range n,
        (((q :: t).filter (fun x => decide (f x = v))).length : ℚ) * g v =
          (fun v => (if f q = v then (1 : ℚ) else 0) * g v +
            ((t.filter (fun x => decide (f x = v))).length : ℚ) * g v) v := by
      intro v _
      show (((q :: t).filter (fun x => decide (f x = v))).length : ℚ) * g v =
        (if f q = v then (1 : ℚ) else 0) * g v +
          ((t.filter (fun x => decide (f x = v))).length : ℚ) * g v
      rw [List.filter_cons]
      by_cases h : f q = v
      · rw [if_pos (by simpa using h), if_pos h, List.length_cons]
        push_cast
        ring
      · rw [if_neg (by simpa using h), if_neg h, zero_mul, zero_add]
    rw [List.map_congr_left hstep, sum_map_add_q,
      sum_ind_val_q g n (f q) (hall q (List.mem_cons_self q t)),
      ih n (fun x hx => hall x (List.mem_cons_of_mem q hx)),
      List.map_cons, List.sum_cons]

/-- A sum of pairs is the pair of component sums. -/
theorem sum_pairs {α : Type} (F : α → ℚ × ℚ) : ∀ l : List α,
    (l.map F).sum =
      ((l.map (fun x => (F x).1)).sum, (l.map (fun x => (F x).2)).sum) := by
  intro l
  induction l with
  | nil => rfl
  | cons x t ih =>
    rw [List.map_cons, List.sum_cons, ih, List.map_cons, List.map_cons,
      List.sum_cons, List.sum_cons]
    rfl

/-- Summing a rational indicator counts the matching positions. -/
theorem sum_map_ind_q {α : Type} (p : α → Prop) [DecidablePred p] :
    ∀ l : List α,
      (l.map (fun x => if p x then (1 : ℚ) else 0)).sum =
        ((l.filter (fun x => decide (p x))).length : ℚ) := by
  intro l
  induction l with
  | nil => simp
  | cons x t ih =>
    rw [List.map_cons, List.sum_cons, ih, List.filter_cons]
    by_cases h : p x
    · rw [if_pos h, if_pos (by simpa using h), List.length_cons]
      push_cast
      ring
    · rw [if_neg h, if_neg (by simpa using h), zero_add]

/-- Extending a range-indexed sum past 34 adds only zero terms when the
summand vanishes from 34 on. -/
theorem range_min34_sum (G : Nat → ℚ) (N : Nat) (hG : ∀ v, 34 ≤ v → G v = 0) :
    ((List.range (min 34 N)).map G).sum = ((List.range N).map G).sum := by
  by_cases h : N ≤ 34
  · rw [Nat.min_eq_right h]
  · rw [Nat.min_eq_left (by omega)]
    have hNr : List.range N = List.range (34 + (N - 34)) := by
      rw [Nat.add_sub_cancel' (by omega)]
    rw [hNr, List.range_add, List.map_append, List.sum_append, List.map_map]
    have hz : ∀ u ∈ List.range (N - 34),
        (G ∘ fun u => 34 + u) u = (fun _ => (0 : ℚ)) u := by
      intro u hu
      show G (34 + u) = 0
      exact hG _ (by omega)
    rw [List.map_congr_left hz, sum_map_zero_q, add_zero]

/-- Counting the members of `[a, b)` in `range n`. -/
theorem countRange (a b : Nat) : ∀ n : Nat,
    ((List.range n).filter (fun j => decide (a ≤ j ∧ j < b))).length =
      min b n - min a n := by
  intro n
  induction n with
  | zero => simp
  | succ m ih =>
    rw [List.range_succ, List.filter_append, List.length_append, ih]
    by_cases h : a ≤ m ∧ m < b
    · have h1 : (([m].filter (fun j => decide (a ≤ j ∧ j < b))).length) = 1 := by
        simp [h]
      rw [h1]
      omega
    · have h1 : (([m].filter (fun j => decide (a ≤ j ∧ j < b))).length) = 0 := by
        simp [h]
      rw [h1]
      omega

theorem filter_of_map {α β : Type} (f : α → β) (p : β → Bool) : ∀ l : List α,
    ((l.map f).filter p).length = (l.filter (fun x => p (f x))).length := by
  intro l
  induction l with
  | nil => rfl
  | cons x t ih =>
    rw [List.map_cons, List.filter_cons, List.filter_cons]
    by_cases h : p (f x) = true
    · rw [if_pos h, if_pos h, List.length_cons, List.length_cons, ih]
    · rw [if_neg h, if_neg h, ih]

theorem length_filter_flatMap {α β : Type} (f : α → List β) (p : β → Bool) :
    ∀ l : List α, ((l.flatMap f).filter p).length =
      (l.map (fun x => ((f x).filter p).length)).sum := by
  intro l
  induction l with
  | nil => rfl
  | cons x t ih =>
    rw [List.flatMap_cons, List.filter_append, List.length_append, ih,
      List.map_cons, List.sum_cons]

/-- A constant paid on the matching positions of a list. -/
theorem sum_map_if_const {α : Type} (P : α → Prop) [DecidablePred P] (m : Nat) :
    ∀ l : List α, (l.map (fun x => if P x then m else 0)).sum =
      m * (l.filter (fun x => decide (P x))).length := by
  intro l
  induction l with
  | nil => simp
  | cons x t ih =>
    rw [List.map_cons, List.sum_cons, ih, List.filter_cons]
    by_cases h : P x
    · rw [if_pos h, if_pos (by simpa using h), List.length_cons]
      ring
    · rw [if_neg h, if_neg (by simpa using h), zero_add]

theorem filter_length_split {α : Type} (p q : α → Bool) : ∀ l : List α,
    (l.filter p).length =
      (l.filter (fun x => p x && q x)).length +
      (l.filter (fun x => p x && !q x)).length := by
  intro l
  induction l with
  | nil => rfl
  | cons x t ih =>
    rw [List.filter_cons, List.filter_cons, List.filter_cons]
    cases hp : p x <;> cases hq : q x <;> simp [ih] <;> omega

/-- Number of raster positions inside an axis-aligned `a × b` rectangle
that fits in the array. -/
theorem rect_count (H W r c a b : Nat) (hH : r + a ≤ H) (hW : c + b ≤ W) :
    ((rasterPos H W).filter
      (fun q => decide (r ≤ q.1 ∧ q.1 < r + a ∧ c ≤ q.2 ∧ q.2 < c + b))).length =
      a * b := by
  rw [rasterPos, length_filter_flatMap]
  have hrow : ∀ i ∈ List.range H,
      (((List.range W).map (fun j => ((i, j) : Pos))).filter
        (fun q => decide (r ≤ q.1 ∧ q.1 < r + a ∧ c ≤ q.2 ∧ q.2 < c + b))).length =
      (fun i => if r ≤ i ∧ i < r + a then b else 0) i := by
    intro i _
    show (((List.range W).map (fun j => ((i, j) : Pos))).filter
        (fun q => decide (r ≤ q.1 ∧ q.1 < r + a ∧ c ≤ q.2 ∧ q.2 < c + b))).length =
      if r ≤ i ∧ i < r + a then b else 0
    rw [filter_of_map]
    by_cases hi : r ≤ i ∧ i < r + a
    · rw [if_pos hi]
      have hcg : ∀ j ∈ List.range W,
          (fun x => decide (r ≤ ((i, x) : Pos).1 ∧ ((i, x) : Pos).1 < r + a ∧
            c ≤ ((i, x) : Pos).2 ∧ ((i, x) : Pos).2 < c + b)) j =
          (fun j => decide (c ≤ j ∧ j < c + b)) j := by
        intro j _
        show decide (r ≤ i ∧ i < r + a ∧ c ≤ j ∧ j < c + b) =
          decide (c ≤ j ∧ j < c + b)
        exact decide_eq_decide.2 (by omega)
      rw [List.filter_congr hcg, countRange]
      omega
    · rw [if_neg hi]
      have hcg : ∀ j ∈ List.range W,
          (fun x => decide (r ≤ ((i, x) : Pos).1 ∧ ((i, x) : Pos).1 < r + a ∧
            c ≤ ((i, x) : Pos).2 ∧ ((i, x) : Pos).2 < c + b)) j =
          (fun _ => false) j := by
        intro j _
        show decide (r ≤ i ∧ i < r + a ∧ c ≤ j ∧ j < c + b) = false
        exact decide_eq_false (by omega)
      rw [List.filter_congr hcg, List.filter_false]
      rfl
  rw [List.map_congr_left hrow, sum_map_if_const, countRange]
  have hmm : min (r + a) H - min r H = a := by omega
  rw [hmm, Nat.mul_comm]

/-- The boundary ring of a `k × k` square (`k ≥ 2`) that fits in the array
has `4k − 4` pixels. -/
theorem ring_count (H W r c k : Nat) (hk : 2 ≤ k) (hH : r + k ≤ H)
    (hW : c + k ≤ W) :
    ((rasterPos H W).filter
      (fun q => decide (OnRing r c k q.1 q.2))).length = 4 * k - 4 := by
  have hsplit : ((rasterPos H W).filter
      (fun q => decide (r ≤ q.1 ∧ q.1 < r + k ∧ c ≤ q.2 ∧ q.2 < c + k))).length =
    ((rasterPos H W).filter
      (fun q => decide (r ≤ q.1 ∧ q.1 < r + k ∧ c ≤ q.2 ∧ q.2 < c + k) &&
        decide (r + 1 ≤ q.1 ∧ q.1 < (r + 1) + (k - 2) ∧
          c + 1 ≤ q.2 ∧ q.2 < (c + 1) + (k - 2)))).length +
    ((rasterPos H W).filter
      (fun q => decide (r ≤ q.1 ∧ q.1 < r + k ∧ c ≤ q.2 ∧ q.2 < c + k) &&
        !decide (r + 1 ≤ q.1 ∧ q.1 < (r + 1) + (k - 2) ∧
          c + 1 ≤ q.2 ∧ q.2 < (c + 1) + (k - 2)))).length :=
    filter_length_split _ _ (rasterPos H W)
  have hsq : ((rasterPos H W).filter
      (fun q => decide (r ≤ q.1 ∧ q.1 < r + k ∧ c ≤ q.2 ∧ q.2 < c + k))).length =
      k * k := rect_count H W r c k k hH hW
  have hin : ((rasterPos H W).filter
      (fun q => decide (r ≤ q.1 ∧ q.1 < r + k ∧ c ≤ q.2 ∧ q.2 < c + k) &&
        decide (r + 1 ≤ q.1 ∧ q.1 < (r + 1) + (k - 2) ∧
          c + 1 ≤ q.2 ∧ q.2 < (c + 1) + (k - 2)))).length =
      (k - 2) * (k - 2) := by
    have hcg : ∀ q ∈ rasterPos H W,
        (decide (r ≤ q.1 ∧ q.1 < r + k ∧ c ≤ q.2 ∧ q.2 < c + k) &&
          decide (r + 1 ≤ q.1 ∧ q.1 < (r + 1) + (k - 2) ∧
            c + 1 ≤ q.2 ∧ q.2 < (c + 1) + (k - 2))) =
        (fun q : Pos => decide (r + 1 ≤ q.1 ∧ q.1 < (r + 1) + (k - 2) ∧
            c + 1 ≤ q.2 ∧ q.2 < (c + 1) + (k - 2))) q := by
      intro q _
      rw [← Bool.decide_and]
      exact decide_eq_decide.2 (by omega)
    rw [List.filter_congr hcg]
    exact rect_count H W (r + 1) (c + 1) (k - 2) (k - 2) (by omega) (by omega)
  have hrg : ((rasterPos H W).filter
      (fun q => decide (r ≤ q.1 ∧ q.1 < r + k ∧ c ≤ q.2 ∧ q.2 < c + k) &&
        !decide (r + 1 ≤ q.1 ∧ q.1 < (r + 1) + (k - 2) ∧
          c + 1 ≤ q.2 ∧ q.2 < (c + 1) + (k - 2)))).length =
      ((rasterPos H W).filter
        (fun q => decide (OnRing r c k q.1 q.2))).length := by
    have hcg : ∀ q ∈ rasterPos H W,
        (decide (r ≤ q.1 ∧ q.1 < r + k ∧ c ≤ q.2 ∧ q.2 < c + k) &&
          !decide (r + 1 ≤ q.1 ∧ q.1 < (r + 1) + (k - 2) ∧
            c + 1 ≤ q.2 ∧ q.2 < (c + 1) + (k - 2))) =
        (fun q : Pos => decide (OnRing r c k q.1 q.2)) q := by
      intro q _
      rw [← decide_not, ← Bool.decide_and]
      refine decide_eq_decide.2 ?_
      simp only [OnRing]
      omega
    rw [List.filter_congr hcg]
  obtain ⟨m, rfl⟩ : ∃ m, k = m + 2 := ⟨k - 2, by omega⟩
  have hkk : (m + 2) * (m + 2) = (4 * (m + 2) - 4) + m * m := by
    have h4 : 4 * (m + 2) - 4 = 4 * m + 4 := by omega
    rw [h4]
    ring
  have hm2 : (m + 2 - 2) * (m + 2 - 2) = m * m := by
    have : m + 2 - 2 = m := by omega
    rw [this]
  omega

/-- The exact value computed by `perimeter` on the strictly-inside `k × k`
square with `n = 4` and constant mode: `4k − 4` with no `sqrt 2` part. -/
theorem perimeterEst_square (H W r c k : Nat) (hk : 2 ≤ k) (hr : 1 ≤ r)
    (hc : 1 ≤ c) (hH : r + k < H) (hW : c + k < W) :
    perimeterEst (squareImg H W r c k) 4 =
      (((4 * k - 4 : Nat) : ℚ), (0 : ℚ)) := by
  have hall : ∀ q ∈ rasterPos H W,
      convAt (perimMask (squareImg H W r c k) 4) q.1 q.2 <
        maxConv (squareImg H W r c k) 4 + 1 := by
    intro q hq
    exact Nat.lt_succ_of_le (mem_le_foldl_max _ 0 _
      (List.mem_map_of_mem (fun q : Pos =>
        convAt (perimMask (squareImg H W r c k) 4) q.1 q.2) hq))
  have hlen : (convHist (squareImg H W r c k) 4).length =
      maxConv (squareImg H W r c k) 4 + 1 := by
    rw [convHist, List.length_map, List.length_range]
  have hget : ∀ v, v < maxConv (squareImg H W r c k) 4 + 1 →
      (convHist (squareImg H W r c k) 4).getD v 0 =
        ((rasterPos H W).filter
          (fun q => decide (convAt (perimMask (squareImg H W r c k) 4) q.1 q.2
            = v))).length := by
    intro v hv
    rw [convHist, List.getD_eq_getElem?_getD, List.getElem?_map,
      List.getElem?_range hv]
    rfl
  have hclass1 : ∀ q ∈ rasterPos H W,
      (fun x : Pos =>
        (perimValue (convAt (perimMask (squareImg H W r c k) 4) x.1 x.2)).1) q =
      (fun x : Pos => if OnRing r c k x.1 x.2 then (1 : ℚ) else 0) q := by
    intro q hq
    show (perimValue (convAt (perimMask (squareImg H W r c k) 4) q.1 q.2)).1 =
      if OnRing r c k q.1 q.2 then (1 : ℚ) else 0
    by_cases hring : OnRing r c k q.1 q.2
    · rw [convAt_ring H W r c k hk hr hc hH hW q.1 q.2 hring, if_pos hring]
    · have hb := mem_rasterPos.1 hq
      rw [convAt_notring H W r c k (by omega) (by omega) q.1 q.2 hb.1 hb.2 hring,
        if_neg hring]
  have hclass2 : ∀ q ∈ rasterPos H W,
      (fun x : Pos =>
        (perimValue (convAt (perimMask (squareImg H W r c k) 4) x.1 x.2)).2) q =
      (fun _ : Pos => (0 : ℚ)) q := by
    intro q hq
    show (perimValue (convAt (perimMask (squareImg H W r c k) 4) q.1 q.2)).2 =
      (0 : ℚ)
    by_cases hring : OnRing r c k q.1 q.2
    · rw [convAt_ring H W r c k hk hr hc hH hW q.1 q.2 hring]
    · have hb := mem_rasterPos.1 hq
      rw [convAt_notring H W r c k (by omega) (by omega) q.1 q.2 hb.1 hb.2 hring]
  have hmin1 : ∀ v ∈ List.range (min 34 (convHist (squareImg H W r c k) 4).length),
      (fun v => (((convHist (squareImg H W r c k) 4).getD v 0 : Nat) : ℚ) *
        (perimValue v).1) v =
      (fun v => (((rasterPos H W).filter
          (fun q => decide (convAt (perimMask (squareImg H W r c k) 4) q.1 q.2
            = v))).length : ℚ) * (perimValue v).1) v := by
    intro v hv
    show (((convHist (squareImg H W r c k) 4).getD v 0 : Nat) : ℚ) *
        (perimValue v).1 = _
    rw [hget v (by simp at hv; omega)]
  have hmin2 : ∀ v ∈ List.range (min 34 (convHist (squareImg H W r c k) 4).length),
      (fun v => (((convHist (squareImg H W r c k) 4).getD v 0 : Nat) : ℚ) *
        (perimValue v).2) v =
      (fun v => (((rasterPos H W).filter
          (fun q => decide (convAt (perimMask (squareImg H W r c k) 4) q.1 q.2
            = v))).length : ℚ) * (perimValue v).2) v := by
    intro v hv
    show (((convHist (squareImg H W r c k) 4).getD v 0 : Nat) : ℚ) *
        (perimValue v).2 = _
    rw [hget v (by simp at hv; omega)]
  have hG1 : ∀ v, 34 ≤ v →
      (fun v => (((rasterPos H W).filter
          (fun q => decide (convAt (perimMask (squareImg H W r c k) 4) q.1 q.2
            = v))).length : ℚ) * (perimValue v).1) v = 0 := by
    intro v hv
    show (((rasterPos H W).filter
      (fun q => decide (convAt (perimMask (squareImg H W r c k) 4) q.1 q.2
        = v))).length : ℚ) * (perimValue v).1 = 0
    rw [perimValue_ge34 hv]
    exact mul_zero _
  have hG2 : ∀ v, 34 ≤ v →
      (fun v => (((rasterPos H W).filter
          (fun q => decide (convAt (perimMask (squareImg H W r c k) 4) q.1 q.2
            = v))).length : ℚ) * (perimValue v).2) v = 0 := by
    intro v hv
    show (((rasterPos H W).filter
      (fun q => decide (convAt (perimMask (squareImg H W r c k) 4) q.1 q.2
        = v))).length : ℚ) * (perimValue v).2 = 0
    rw [perimValue_ge34 hv]
    exact mul_zero _
  have hfst : (perimeterEst (squareImg H W r c k) 4).1 =
      ((4 * k - 4 : Nat) : ℚ) := by
    have hcomp1 : (perimeterEst (squareImg H W r c k) 4).1 =
        ((List.range (min 34 (convHist (squareImg H W r c k) 4).length)).map
          (fun v => (((convHist (squareImg H W r c k) 4).getD v 0 : Nat) : ℚ) *
            (perimValue v).1)).sum := by
      rw [perimeterEst, sum_pairs]
    rw [hcomp1, List.map_congr_left hmin1, hlen,
      range_min34_sum _ _ hG1,
      dot_hist_q (fun q : Pos =>
          convAt (perimMask (squareImg H W r c k) 4) q.1 q.2)
        (fun v => (perimValue v).1) (rasterPos H W)
        (maxConv (squareImg H W r c k) 4 + 1) hall,
      List.map_congr_left hclass1, sum_map_ind_q,
      ring_count H W r c k hk (by omega) (by omega)]
  have hsnd : (perimeterEst (squareImg H W r c k) 4).2 = (0 : ℚ) := by
    have hcomp2 : (perimeterEst (squareImg H W r c k) 4).2 =
        ((List.range (min 34 (convHist (squareImg H W r c k) 4).length)).map
          (fun v => (((convHist (squareImg H W r c k) 4).getD v 0 : Nat) : ℚ) *
            (perimValue v).2)).sum := by
      rw [perimeterEst, sum_pairs]
    rw [hcomp2, List.map_congr_left hmin2, hlen,
      range_min34_sum _ _ hG2,
      dot_hist_q (fun q : Pos =>
          convAt (perimMask (squareImg H W r c k) 4) q.1 q.2)
        (fun v => (perimValue v).2) (rasterPos H W)
        (maxConv (squareImg H W r c k) 4 + 1) hall,
      List.map_congr_left hclass2, sum_map_zero_q]
  calc perimeterEst (squareImg H W r c k) 4
      = ((perimeterEst (squareImg H W r c k) 4).1,
         (perimeterEst (squareImg H W r c k) 4).2) := rfl
    _ = (((4 * k - 4 : Nat) : ℚ), (0 : ℚ)) := by rw [hfst, hsnd]

/-- C7 (amended): for every `k ≥ 2`, `perimeter` of a filled `k × k`
square of foreground strictly inside a larger all-zero array, with `n = 4`
and `mode="constant"`, returns `4*(k-1)` — not `4*k`: each of the
`4k − 4` boundary-ring pixels contributes exactly one weight-1 table
entry (codes 5, 15, 25), and no `sqrt 2` or `(1+sqrt 2)/2` corrections
contribute. -/
theorem perimeter_square (H W r c k : Nat) (hk : 2 ≤ k) (hr : 1 ≤ r)
    (hc : 1 ≤ c) (hH : r + k < H) (hW : c + k < W) :
    ((perimeterEst (squareImg H W r c k) 4).1 : ℝ) +
      ((perimeterEst (squareImg H W r c k) 4).2 : ℝ) * Real.sqrt 2 =
      4 * ((k : ℝ) - 1) := by
  obtain ⟨m, rfl⟩ : ∃ m, k = m + 2 := ⟨k - 2, by omega⟩
  rw [perimeterEst_square H W r c (m + 2) hk hr hc hH hW,
    show 4 * (m + 2) - 4 = 4 * m + 4 from by omega]
  push_cast
  ring

/-- C7 (counterexample): for the 2×2 square strictly inside a 4×4 array,
the claim predicts perimeter `4*k = 8`, but `perimeter` returns 4. -/
theorem perimeter_square_counterexample :
    ((perimeterEst (squareImg 4 4 1 1 2) 4).1 : ℝ) +
      ((perimeterEst (squareImg 4 4 1 1 2) 4).2 : ℝ) * Real.sqrt 2 ≠ 4 * 2 := by
  have h : perimeterEst (squareImg 4 4 1 1 2) 4 =
      (((4 * 2 - 4 : Nat) : ℚ), (0 : ℚ)) :=
    perimeterEst_square 4 4 1 1 2 (by decide) (by decide) (by decide)
      (by decide) (by decide)
  rw [h]
  norm_num

theorem perimeter_square_witness :
    2 ≤ 2 ∧ 1 ≤ 1 ∧ 1 + 2 < 4 ∧
    (((perimeterEst (squareImg 4 4 1 1 2) 4).1 : ℝ) +
      ((perimeterEst (squareImg 4 4 1 1 2) 4).2 : ℝ) * Real.sqrt 2 =
      4 * (((2 : Nat) : ℝ) - 1)) :=
  ⟨by decide, by decide, by decide,
    perimeter_square 4 4 1 1 2 (by decide) (by decide) (by decide) (by decide)
      (by decide)⟩

/-- C10: `border` and `borders` reset the output buffer to all-false
before computing, so for every label map, structuring element and mode,
two calls with out buffers of equal shape and arbitrary different prior
boolean contents return identical masks — the result is a function of
(labeled, i, j, Bc, mode) alone. -/
theorem border_output_independent (labeled : Img) (vi vj : Int)
    (Bc : List (Int × Int)) (m : BorderMode) (o1 o2 : BImg)
    (hh : o1.h = o2.h) (hw : o1.w = o2.w) :
    border_call labeled vi vj Bc o1 = border_call labeled vi vj Bc o2 ∧
    borders_call labeled Bc m o1 = borders_call labeled Bc m o2 := by
  constructor
  · show (⟨o1.h, o1.w,
        fun a b => false || border_px labeled vi vj Bc a b⟩ : BImg) =
      ⟨o2.h, o2.w, fun a b => false || border_px labeled vi vj Bc a b⟩
    rw [hh, hw]
  · show (⟨o1.h, o1.w,
        fun a b => false || bordersPx labeled Bc m a b⟩ : BImg) =
      ⟨o2.h, o2.w, fun a b => false || bordersPx labeled Bc m a b⟩
    rw [hh, hw]

theorem border_output_independent_witness :
    exOutT.h = exOutF.h ∧ exOutT.w = exOutF.w ∧
    (border_call exA 5 3 crossSE exOutT = border_call exA 5 3 crossSE exOutF ∧
     borders_call exA crossSE BorderMode.constant exOutT =
       borders_call exA crossSE BorderMode.constant exOutF) :=
  ⟨rfl, rfl, border_output_independent exA 5 3 crossSE BorderMode.constant
    exOutT exOutF rfl rfl⟩

end Mahotas
